import Mathlib

/-!
Verification development for the `fusta` virtual-filesystem engine.

The Rust sources are shallowly embedded into Lean:
  * bytes are `Nat` values below 256, byte strings are `List Nat`;
  * the on-disk state is a total map from file names to byte strings
    (`Disk`); opening a file that was never written yields `[]`;
  * Rust panics (out-of-range slices, failed `read_exact`, `unwrap` on
    `None`) are modelled by `Option`, with `none` marking the panic;
  * machine integers (`usize`, `u64`, `i64` offsets, which FUSE only
    ever passes as non-negative values) are modelled by `Nat`.

The embedded functions mirror `src/fs.rs` of the repository.  The FASTA
reader used by `fs.rs` (the revision with the `seq : Option<Vec<u8>>`
field and the with/without raw-bytes modes, see `fragment.seq.unwrap()`
at `fs.rs:611` and `fs.rs:1684`) is not part of the source tree; the
`src/fasta.rs` file present there is an earlier `keep_labels` revision
that does not type-check against `fs.rs`.  That missing reader is
modelled from the specification text in the `Fasta` namespace below.
-/

abbrev Bytes := List Nat

/-- The on-disk file system: file name to contents.  A missing file is
modelled as empty contents. -/
abbrev Disk := String → Bytes

-- errno values used by the FUSE replies in `fs.rs`
def ENOENT_C : Nat := 2
def EIO_C : Nat := 5
def EACCES_C : Nat := 13
def EEXIST_C : Nat := 17

-- Reserved inodes (`fs.rs:36-51`)
def ROOT_DIR : Nat := 1
def FASTA_DIR : Nat := 2
def SEQ_DIR : Nat := 3
def APPEND_DIR : Nat := 4
def SUBFRAGMENTS_DIR : Nat := 5
def INFO_FILE : Nat := 10
def LABELS_FILE : Nat := 11
def INFO_CSV_FILE : Nat := 12
def FIRST_INO : Nat := 20

-- File-name extensions (`fs.rs:31-33`), as byte strings:
-- `FASTA_EXT = ".fa"`, `SEQ_EXT = ".seq"`, `DOTLESS_SEQ_EXT = ".seq"`.
def FASTA_EXT : Bytes := [46, 102, 97]
def SEQ_EXT : Bytes := [46, 115, 101, 113]
def DOTLESS_SEQ_EXT : Bytes := [46, 115, 101, 113]

/-- Rust `is_fasta_char` (`fs.rs:53-55`): ASCII alphanumerics plus
`\n - _ . + =`. -/
def isFastaChar (c : Nat) : Bool :=
  (48 ≤ c && c ≤ 57) || (65 ≤ c && c ≤ 90) || (97 ≤ c && c ≤ 122) ||
    (c == 10 || c == 45 || c == 95 || c == 46 || c == 43 || c == 61)

/-- Slice `(l.drop s).take (e - s)`: the bytes of `l` at positions
`[s, e)`, clamped to the length of `l`. -/
def sliceL (l : Bytes) (s e : Nat) : Bytes := (l.drop s).take (e - s)

/-- A successful `read_exact` of `n` bytes at position `pos` of file
contents `f`; `none` models the Rust panic when fewer bytes remain. -/
def readExactAt (f : Bytes) (pos n : Nat) : Option Bytes :=
  if n ≤ f.length - pos then some ((f.drop pos).take n) else none

/-- Rust `enum Backing` (`fs.rs:137-143`).  The mmap variant stores the
mapped bytes themselves (the slice of the source file that was mapped). -/
inductive Backing where
  | file : String → Nat → Nat → Backing
  | buffer : Bytes → Backing
  | pureBuffer : Bytes → Backing
  | mmap : Bytes → Backing
deriving DecidableEq

/-- Rust `Backing::len` (`fs.rs:144-153`). -/
def Backing.len : Backing → Nat
  | .file _ s e => e - s
  | .buffer b => b.length
  | .pureBuffer b => b.length
  | .mmap b => b.length

/-- Rust `Fragment::data` (`fs.rs:270-285`): the full body bytes.  For a
file slice this opens the file, seeks to `start` and `read_exact`s
`data_size` bytes (panicking — `none` — if the file is too short). -/
def Backing.snapshot (disk : Disk) : Backing → Option Bytes
  | .file fn s e => readExactAt (disk fn) s (e - s)
  | .buffer b => some b
  | .pureBuffer b => some b
  | .mmap b => some b

/-- Rust `Fragment::chunk` (`fs.rs:287-321`).  For a file slice, `size`
bytes are `read_exact` at `start + offset` — with no clamping against
the slice's own `end`.  For the in-memory variants the upper end is
clamped to the length, and the Rust slice `b[offset..end]` panics —
`none` — when `offset` exceeds the length. -/
def Backing.chunk (disk : Disk) (bk : Backing) (offset size : Nat) : Option Bytes :=
  match bk with
  | .file fn s _ => readExactAt (disk fn) (s + offset) size
  | .buffer b =>
      if offset ≤ b.length then some ((b.drop offset).take size) else none
  | .pureBuffer b =>
      if offset ≤ b.length then some ((b.drop offset).take size) else none
  | .mmap b =>
      if offset ≤ b.length then some ((b.drop offset).take size) else none

/-- Rust `Fragment::pure_chunk` (`fs.rs:323-359`).  For a file slice the
code seeks to `start + offset` and then additionally `skip(offset)`s
the newline-free stream, reading to the end of the file.  For
`Buffer`/`MMap` the whole backing is filtered and then
`skip(offset).take(size)` (total, clamping).  For `PureBuffer` the raw
slice `b[offset..offset + size]` is taken, panicking — `none` — when it
does not fit. -/
def Backing.pureChunk (disk : Disk) (bk : Backing) (offset size : Nat) : Option Bytes :=
  match bk with
  | .file fn s _ =>
      some (((((disk fn).drop (s + offset)).filter (· != 10)).drop offset).take size)
  | .buffer b => some (((b.filter (· != 10)).drop offset).take size)
  | .pureBuffer b =>
      if offset + size ≤ b.length then some ((b.drop offset).take size) else none
  | .mmap b => some (((b.filter (· != 10)).drop offset).take size)

/-- One of the two synthetic files of a fragment (`struct FragmentFile`,
`fs.rs:106-112`, keeping the fields the claims are about: name, inode
and the size stored in the attributes). -/
structure VFile where
  name : Bytes
  ino : Nat
  size : Nat
deriving DecidableEq

/-- Rust `struct Fragment` (`fs.rs:155-162`).  The Rust field `name` (the
free-text comment of the header) is kept under the same name. -/
structure Fragment where
  id : Bytes
  name : Option Bytes
  data : Backing
  fastaFile : VFile
  seqFile : VFile
deriving DecidableEq

/-- Rust `Fragment::make_label` (`fs.rs:164-170`):
`">" ++ id ++ (" " ++ name)? ++ "\n"`. -/
def makeLabel (id : Bytes) (name : Option Bytes) : Bytes :=
  62 :: (id ++ (match name with | some n => 32 :: n | none => []) ++ [10])

def Fragment.label (f : Fragment) : Bytes := makeLabel f.id f.name

def Fragment.labelSize (f : Fragment) : Nat := f.label.length

/-- Rust `Fragment::data_size` (`fs.rs:258-264`). -/
def Fragment.dataSize (f : Fragment) : Nat := f.data.len

/-- Rust `Fragment::new` (`fs.rs:205-239`): the `.fa` view has size
`label + body`, the `.seq` view has size `body`. -/
def Fragment.mk' (id : Bytes) (name : Option Bytes) (data : Backing)
    (fastaIno seqIno : Nat) : Fragment :=
  { id := id, name := name, data := data,
    fastaFile :=
      { name := id ++ FASTA_EXT, ino := fastaIno,
        size := (makeLabel id name).length + data.len },
    seqFile := { name := id ++ SEQ_EXT, ino := seqIno, size := data.len } }

/-- Rust `Fragment::refresh_virtual_files` (`fs.rs:246-252`). -/
def Fragment.refreshVirtualFiles (f : Fragment) : Fragment :=
  { f with
    fastaFile := { f.fastaFile with
      name := f.id ++ FASTA_EXT, size := f.labelSize + f.dataSize },
    seqFile := { f.seqFile with
      name := f.id ++ SEQ_EXT, size := f.dataSize } }

/-- Rust `Fragment::rename` (`fs.rs:241-244`). -/
def Fragment.rename (f : Fragment) (newId : Bytes) : Fragment :=
  ({ f with id := newId }).refreshVirtualFiles

/-- Rust `enum Cache` (`fs.rs:399-404`). -/
inductive Cache where
  | mmap
  | file
  | ram
deriving DecidableEq

/-- Rust `struct PendingAppend` (`fs.rs:412-418`): the accumulated bytes,
the append file's own inode and the two inodes reserved for the
fragment that will materialise on release. -/
structure PendingAppend where
  data : Bytes
  ino : Nat
  seqIno : Nat
  fastaIno : Nat
deriving DecidableEq

/-- Rust `struct SubFragment` (`fs.rs:420-430`): the parent fragment's id
and the starting offset (the size lives in the inode attributes and is
passed to reads by the kernel, so it is not needed here). -/
structure SubFragment where
  fragment : Bytes
  start : Nat
deriving DecidableEq

/-- Rust `struct FustaFS` (`fs.rs:444-461`), restricted to the state the
claims are about.  The three summary-text buffers (`infos.txt`,
`infos.csv`, `labels.txt`) are presentation-only derived data and are
not embedded; `metadata`, timestamps and the csv separator are dropped
for the same reason.  `name2fragment` and `ino2fragment` are the two
hash indices, as association lists whose lookup takes the last binding
(hash-map collect semantics). -/
structure FustaFS where
  fragments : List Fragment
  name2fragment : List (Bytes × Nat)
  ino2fragment : List (Nat × Nat)
  filename : String
  cache : Cache
  concretizeThreshold : Nat
  noOverwrite : Bool
  currentIno : Nat
  pendingAppends : List (Bytes × PendingAppend)
  subfragments : List (Nat × SubFragment)
  dirty : Bool
deriving DecidableEq

/-- Lookup in a collected hash map: the last binding for the key wins. -/
def mapFind {β : Type} (l : List (Nat × β)) (k : Nat) : Option β :=
  List.lookup k l.reverse

def mapFindB {β : Type} (l : List (Bytes × β)) (k : Bytes) : Option β :=
  List.lookup k l.reverse

/-- Rust `FustaFS::update_indices` (`fs.rs:842-858`). -/
def FustaFS.updateIndices (fs : FustaFS) : FustaFS :=
  { fs with
    name2fragment := fs.fragments.enum.map (fun p => (p.2.id, p.1)),
    ino2fragment :=
      (fs.fragments.enum.map
        (fun p => [(p.2.fastaFile.ino, p.1), (p.2.seqFile.ino, p.1)])).flatten }

/-- Rust `FustaFS::refresh_metadata` (`fs.rs:831-840`): when dirty or
forced, the summary buffers are regenerated (not embedded, see
`FustaFS`) and the indices rebuilt. -/
def FustaFS.refreshMetadata (fs : FustaFS) (force : Bool) : FustaFS :=
  if fs.dirty || force then fs.updateIndices else fs

/-- Rust `FustaFS::fragment_from_id` (`fs.rs:701-703`).  The Rust code
indexes `self.fragments[i]` directly; an out-of-range stale index (a
panic) is modelled as absence. -/
def FustaFS.fragmentFromId (fs : FustaFS) (id : Bytes) : Option Fragment :=
  (mapFindB fs.name2fragment id).bind (fun i => fs.fragments.get? i)

/-- Rust `FustaFS::fragment_from_ino` (`fs.rs:705-709`). -/
def FustaFS.fragmentIdxFromIno (fs : FustaFS) (ino : Nat) : Option Nat :=
  (mapFind fs.ino2fragment ino).bind
    (fun i => (fs.fragments.get? i).map (fun _ => i))

def FustaFS.fragmentFromIno (fs : FustaFS) (ino : Nat) : Option Fragment :=
  (mapFind fs.ino2fragment ino).bind (fun i => fs.fragments.get? i)

/-- Rust `FustaFS::subfragment_from_ino` (`fs.rs:749-751`). -/
def FustaFS.subfragmentFromIno (fs : FustaFS) (ino : Nat) : Option SubFragment :=
  mapFind fs.subfragments ino

/-- Rust `FustaFS::is_seq_file` (`fs.rs:868-874`). -/
def FustaFS.isSeqFile (fs : FustaFS) (ino : Nat) : Bool :=
  match fs.fragmentFromIno ino with
  | some f => f.seqFile.ino == ino
  | none => false

/-- Rust `FustaFS::is_append_file` (`fs.rs:876-878`). -/
def FustaFS.isAppendFile (fs : FustaFS) (ino : Nat) : Bool :=
  fs.pendingAppends.any (fun p => p.2.ino == ino)

/-- Rust `FustaFS::is_writeable` (`fs.rs:880-882`). -/
def FustaFS.isWriteable (fs : FustaFS) (ino : Nat) : Bool :=
  fs.isAppendFile ino || fs.isSeqFile ino

example : Backing.chunk (fun _ => []) (.buffer [65, 66, 67, 68]) 1 2 = some [66, 67] := by decide
example : Backing.chunk (fun _ => []) (.buffer [65, 66]) 1 5 = some [66] := by decide
example : Backing.chunk (fun _ => []) (.buffer [65, 66]) 3 1 = none := by decide
example : Backing.pureChunk (fun _ => []) (.buffer [65, 10, 66, 10, 67]) 1 2 = some [66, 67] := by decide
example : Backing.pureChunk (fun _ => []) (.pureBuffer [65, 66, 67]) 1 5 = none := by decide

namespace Fasta

/-- Modelled from the spec: the descriptor emitted by the FASTA reader
revision that `fs.rs` links against (absent from `src/`; `src/fasta.rs`
is an earlier revision without the `seq` field).  Spec §4.1: "For each
fragment the descriptor records: `id`, `comment`, byte range
`(start, end)` [...], a convenience length, and optionally the
concatenated raw bytes with newlines removed."  The comment field keeps
the Rust name `name`. -/
structure Descriptor where
  id : Bytes
  name : Option Bytes
  pos : Nat × Nat
  len : Nat
  seq : Option Bytes
deriving DecidableEq

/-- Fuel-driven splitting of a byte string into lines, mirroring
`BufRead::lines`: each line is returned without its terminating
newline, together with a flag telling whether that newline was
present.  The fuel only serves to make the recursion structural; any
fuel of at least the input length is enough. -/
def toLinesF : Nat → Bytes → List (Bytes × Bool)
  | 0, _ => []
  | fuel + 1, b =>
    match b with
    | [] => []
    | _ :: _ =>
      let line := b.takeWhile (· != 10)
      match b.drop line.length with
      | [] => [(line, false)]
      | _ :: rest => (line, true) :: toLinesF fuel rest

def toLines (b : Bytes) : List (Bytes × Bool) := toLinesF (b.length + 1) b

/-- The number of input bytes a list of lines stands for (each
terminated line contributes its length plus one for the newline). -/
def rawLenL (ls : List (Bytes × Bool)) : Nat :=
  (ls.map (fun p => p.1.length + (if p.2 then 1 else 0))).sum

/-- The byte string a list of lines stands for. -/
def flattenLines (ls : List (Bytes × Bool)) : Bytes :=
  (ls.map (fun p => p.1 ++ (if p.2 then [10] else []))).flatten

/-- Modelled from the spec (§4.1): "the first whitespace-separated
token is the id, the remainder is the comment".  `hdr` is the header
line without its leading `>`. -/
def splitHeader (hdr : Bytes) : Bytes × Option Bytes :=
  let id := hdr.takeWhile (· != 32)
  match hdr.drop id.length with
  | [] => (id, none)
  | _ :: rest => (id, some rest)

/-- Does the line start a new fragment (`>`)? -/
def isHeaderL (l : Bytes) : Bool :=
  match l with
  | 62 :: _ => true
  | _ => false

/-- Does the last line of `body` carry a terminating newline? -/
def lastTermAdj (body : List (Bytes × Bool)) : Nat :=
  match body.getLast? with
  | some (_, true) => 1
  | _ => 0

/-- Modelled from the spec: the streaming FASTA reader (§4.1).  It
walks the lines in order carrying the byte offset; a `>` line opens a
fragment whose body is every following non-header line; the descriptor
records `start` = the offset just after the header line's newline and
`end` = the offset just past the last sequence byte, excluding the
terminating newline of the final body line; in raw-bytes mode (`ws`)
the body lines are concatenated with the newlines removed.  The fuel
only makes the recursion structural (one unit per emitted fragment or
skipped leading line); `length + 1` is always enough. -/
def readRecsF (ws : Bool) : Nat → Nat → List (Bytes × Bool) → List Descriptor
  | 0, _, _ => []
  | _ + 1, _, [] => []
  | fuel + 1, off, (l, t) :: rest =>
    if isHeaderL l then
      let body := rest.takeWhile (fun p => !(isHeaderL p.1))
      let rest2 := rest.drop body.length
      let start := off + l.length + (if t then 1 else 0)
      let braw := rawLenL body
      let dEnd := start + braw - lastTermAdj body
      let hd := splitHeader (l.drop 1)
      { id := hd.1, name := hd.2, pos := (start, dEnd), len := dEnd - start,
        seq := if ws then some ((body.map (fun p => p.1)).flatten) else none } ::
        readRecsF ws fuel (start + braw) rest2
    else
      readRecsF ws fuel (off + l.length + (if t then 1 else 0)) rest

/-- Modelled from the spec: the reader over a whole input, in mode
`ws` (with raw bytes) or not. -/
def specFastaRead (ws : Bool) (input : Bytes) : List Descriptor :=
  readRecsF ws ((toLines input).length + 1) 0 (toLines input)

/-- One record of a well-formed FASTA file, used to state the reader
claims: an id, an optional comment and the body lines. -/
structure FastaRecord where
  id : Bytes
  comment : Option Bytes
  bodyLines : List Bytes
deriving DecidableEq

/-- The serialized header line of a record (without its newline). -/
def headerLineOf (r : FastaRecord) : Bytes :=
  62 :: (r.id ++ (match r.comment with | some c => 32 :: c | none => []))

/-- Attach newline flags to body lines: all terminated except that the
very last carries `t`. -/
def terminate : List Bytes → Bool → List (Bytes × Bool)
  | [], _ => []
  | [l], t => [(l, t)]
  | l :: l2 :: rest, t => (l, true) :: terminate (l2 :: rest) t

/-- The serialized lines of one record; `lastT` tells whether its last
body line is newline-terminated. -/
def recordLinesT (r : FastaRecord) (lastT : Bool) : List (Bytes × Bool) :=
  (headerLineOf r, true) :: terminate r.bodyLines lastT

/-- The serialized lines of a record list; every record is fully
newline-terminated except that the very last line of the file carries
`t`. -/
def recordsLines : List FastaRecord → Bool → List (Bytes × Bool)
  | [], _ => []
  | r :: rest, t => recordLinesT r (if rest.isEmpty then t else true) ++ recordsLines rest t

/-- The serialized bytes of a FASTA file holding the given records;
`t` tells whether the final line carries a trailing newline. -/
def fastaBytes (rs : List FastaRecord) (t : Bool) : Bytes :=
  flattenLines (recordsLines rs t)

/-- Well-formedness of a record: at least one body line; body lines
are nonempty, newline-free and do not start with `>`; the id is
newline- and space-free; the comment is newline-free. -/
def wfRecord (r : FastaRecord) : Bool :=
  !r.bodyLines.isEmpty &&
  r.bodyLines.all (fun l => !l.isEmpty && l.all (· != 10) && !(isHeaderL l)) &&
  r.id.all (fun c => c != 10 && c != 32) &&
  (match r.comment with | some c => c.all (· != 10) | none => true)

def wfRecords (rs : List FastaRecord) : Bool := rs.all wfRecord

/-- The body lines of a record joined with single newlines — the byte
range the claim says a descriptor must cover. -/
def joinNL : List Bytes → Bytes
  | [] => []
  | [l] => l
  | l :: l2 :: rest => l ++ 10 :: joinNL (l2 :: rest)

/-- The descriptors the reader is expected to produce on a serialized
record list starting at byte offset `off`. -/
def expectedDescs (ws : Bool) : Nat → List FastaRecord → Bool → List Descriptor
  | _, [], _ => []
  | off, r :: rest, t =>
    { id := r.id, name := r.comment,
      pos := (off + (headerLineOf r).length + 1,
        off + (headerLineOf r).length + 1 + (joinNL r.bodyLines).length),
      len := (joinNL r.bodyLines).length,
      seq := if ws then some r.bodyLines.flatten else none } ::
      expectedDescs ws (off + (headerLineOf r).length + 1 + (joinNL r.bodyLines).length +
        (if (if rest.isEmpty then t else true) then 1 else 0)) rest t

end Fasta

example : Fasta.toLines [62, 97, 10, 65, 67, 10, 71, 84] =
    [([62, 97], true), ([65, 67], true), ([71, 84], false)] := by decide
example : Fasta.specFastaRead true [62, 97, 10, 65, 67, 10, 71, 84, 10] =
    [{ id := [97], name := none, pos := (3, 8), len := 5, seq := some [65, 67, 71, 84] }] := by
  decide
example : Fasta.specFastaRead false [62, 97, 32, 99, 99, 10, 65, 67, 10, 62, 98, 10, 84, 84] =
    [{ id := [97], name := some [99, 99], pos := (6, 8), len := 2, seq := none },
     { id := [98], name := none, pos := (12, 14), len := 2, seq := none }] := by decide

/-- The newline appended after a body during concretization
(`fs.rs:676-683`): one `\n` exactly when the body has a last byte and
it is not already a newline. -/
def nlPad (b : Bytes) : Bytes :=
  match b.getLast? with
  | some c => if c = 10 then [] else [10]
  | none => []

/-- A fragment rebased onto the given file-slice range and refreshed
(`fs.rs:685-686`). -/
def rebased (fn : String) (f : Fragment) (s e : Nat) : Fragment :=
  ({ f with data := Backing.file fn s e }).refreshVirtualFiles

/-- The body of the `concretize` fragment loop (`fs.rs:665-687`): for
each fragment write the label, remember the byte index as the new
start, write the body bytes, append a newline when the last body byte
is not one (bumping the index first), and rebase the fragment onto a
`File` backing over the recorded range — the recorded end therefore
covers the appended newline — refreshing its synthetic files.  Returns
the rebased fragments and the bytes written. -/
def concretizeLoop (fn : String) (disk : Disk) : List Fragment → Nat → Option (List Fragment × Bytes)
  | [], _ => some ([], [])
  | f :: rest, idx =>
    match f.data.snapshot disk with
    | none => none
    | some b =>
      match concretizeLoop fn disk rest (idx + f.label.length + b.length + (nlPad b).length) with
      | none => none
      | some (rest2, out2) =>
        some (rebased fn f (idx + f.label.length)
            (idx + f.label.length + b.length + (nlPad b).length) :: rest2,
          f.label ++ b ++ nlPad b ++ out2)

/-- Rust `FustaFS::concretize` (`fs.rs:626-699`).  When dirty, and unless a
non-forced call is skipped by the footprint test, the canonical form is
written to the sibling temporary file (reading every body from the old
disk) which is then atomically renamed over the source; the model is
marked clean. -/
def FustaFS.concretize (fs : FustaFS) (force : Bool) (disk : Disk) : Option (FustaFS × Disk) :=
  if fs.dirty = false then some (fs, disk)
  else
    let inMemory :=
      (fs.fragments.map (fun f => match f.data with | .buffer b => b.length | _ => 0)).sum
    if !force &&
        (decide (inMemory < fs.concretizeThreshold) || !(fs.cache == Cache.ram)) then
      some (fs, disk)
    else
      match concretizeLoop fs.filename disk fs.fragments 0 with
      | none => none
      | some (frags', out) =>
        some ({ fs with fragments := frags', dirty := false },
          fun n => if n = fs.filename then out else disk n)

/-- Written from the spec's words, to be compared with `concretize`:
the canonical serialization of a fragment set — for each fragment in
order, the label line, the body bytes, and an extra newline when the
body is nonempty and does not already end in one (the code appends
nothing after an empty body: `data().last()` is `None`). -/
def canonicalFileOf (disk : Disk) : List Fragment → Option Bytes
  | [] => some []
  | f :: rest =>
    match f.data.snapshot disk with
    | none => none
    | some b =>
      match canonicalFileOf disk rest with
      | none => none
      | some out => some (f.label ++ b ++ nlPad b ++ out)

/-- Rust `Path::file_stem` / `Path::extension` for a bare file name: split
at the last dot, except that a dot in leading position (hidden file)
or a missing dot yields no extension. -/
def splitLastDot (name : Bytes) : Option (Bytes × Bytes) :=
  match name.reverse.takeWhile (· != 46) with
  | ext =>
    if ext.length + 1 ≤ name.length then
      -- there is a dot at position `name.length - ext.length - 1`
      if name.length - ext.length - 1 = 0 then none
      else some (name.take (name.length - ext.length - 1), ext.reverse)
    else none

def fileStemOf (name : Bytes) : Bytes :=
  match splitLastDot name with
  | some (stem, _) => stem
  | none => name

def extensionOf (name : Bytes) : Option Bytes :=
  (splitLastDot name).map (fun p => p.2)

/-- Rust `str::strip_suffix`. -/
def stripSuffixB (name suffix : Bytes) : Option Bytes :=
  if suffix.length ≤ name.length &&
      name.drop (name.length - suffix.length) == suffix then
    some (name.take (name.length - suffix.length))
  else none

/-- Replies sent back to the FUSE host. -/
inductive Reply where
  | ok
  | written (n : Nat)
  | entry
  | data (b : Bytes)
  | error (errno : Nat)
deriving DecidableEq

/-- Rust `FustaFS::write` (`fs.rs:1331-1403`): refuse non-writable inodes;
validate every byte against `is_fasta_char` before touching anything
(replying `EIO` otherwise); then either splice into the fragment's
buffer (upgrading the backing and zero-extending as needed, refreshing
the synthetic files and marking dirty) or into the pending append's
buffer. -/
def FustaFS.write (fs : FustaFS) (disk : Disk) (ino offset : Nat) (data : Bytes) :
    Option (FustaFS × Reply) :=
  if !(fs.isWriteable ino) then some (fs, .error EACCES_C)
  else if !(data.all isFastaChar) then some (fs, .error EIO_C)
  else
    match fs.fragmentIdxFromIno ino with
    | some i =>
      match fs.fragments.get? i with
      | some frag => do
        let frag1 ←
          match frag.data with
          | .buffer _ => some frag
          | _ => (frag.data.snapshot disk).map (fun b => { frag with data := .buffer b })
        match frag1.data with
        | .buffer b =>
          let maxSize := offset + data.length
          let b1 := if frag1.dataSize < maxSize
            then b ++ List.replicate (maxSize - b.length) 0 else b
          let b2 := b1.take offset ++ data ++ b1.drop (offset + data.length)
          let frag2 := ({ frag1 with data := .buffer b2 }).refreshVirtualFiles
          some ({ fs with fragments := fs.fragments.set i frag2, dirty := true },
            .written data.length)
        | _ => none
      | none => some (fs, .error ENOENT_C)
    | none =>
      match fs.pendingAppends.find? (fun p => p.2.ino == ino) with
      | some pr =>
        let b := pr.2.data
        let endP := offset + data.length
        let b1 := if b.length < endP then b ++ List.replicate (endP - b.length) 0 else b
        let b2 := b1.take offset ++ data ++ b1.drop endP
        let pends := fs.pendingAppends.map
          (fun q => if q.1 == pr.1 then (q.1, { q.2 with data := b2 }) else q)
        some ({ fs with pendingAppends := pends }, .written data.length)
      | none => some (fs, .error ENOENT_C)

/-- Rust `FustaFS::rename` (`fs.rs:1534-1603`).  In `seqs/` or `fasta/`
with `newparent = parent`: the new id is the new name, with the
extension stripped when `Path::extension(newname)` (which never
contains a dot) equals `DOTLESS_SEQ_EXT` (which starts with one); a
collision with overwrite forbidden is refused; otherwise a colliding
fragment is evicted first, and only then the source fragment is looked
up and renamed; on success the model is marked dirty, concretized
(non-forced) and refreshed. -/
def FustaFS.rename (fs : FustaFS) (disk : Disk) (parent : Nat) (name : Bytes)
    (newparent : Nat) (newname : Bytes) : Option (FustaFS × Disk × Reply) :=
  if parent = ROOT_DIR || parent = APPEND_DIR || parent = SUBFRAGMENTS_DIR then
    some (fs, disk, .error EACCES_C)
  else if parent = SEQ_DIR || parent = FASTA_DIR then
    if !(newparent == parent) then some (fs, disk, .error EACCES_C)
    else
      let newId :=
        if extensionOf newname == some DOTLESS_SEQ_EXT
        then fileStemOf newname else newname
      let replaced := fs.fragmentFromId newId
      if replaced.isSome && fs.noOverwrite then some (fs, disk, .error EACCES_C)
      else
        let fs1 := if replaced.isSome
          then { fs with fragments := fs.fragments.filter (fun f => !(f.id == newId)) }
          else fs
        match stripSuffixB name (if parent = SEQ_DIR then SEQ_EXT else FASTA_EXT) with
        | none => none
        | some srcId =>
          match mapFindB fs1.name2fragment srcId with
          | some i =>
            match fs1.fragments.get? i with
            | some frag => do
              let fs2 := { fs1 with
                fragments := fs1.fragments.set i (frag.rename newId), dirty := true }
              let (fs3, disk3) ← fs2.concretize false disk
              some (fs3.refreshMetadata false, disk3, .ok)
            | none => none
          | none => some (fs1, disk, .error ENOENT_C)
  else some (fs, disk, .error ENOENT_C)

/-- Rust `FustaFS::mknod` (`fs.rs:1267-1329`): only under `append/`; a
basename colliding with an existing fragment id is refused when
overwriting is forbidden; otherwise a pending append is allocated with
a fresh inode and two reserved inodes (in that order). -/
def FustaFS.mknod (fs : FustaFS) (parent : Nat) (name : Bytes) : Option (FustaFS × Reply) :=
  if parent = ROOT_DIR || parent = SEQ_DIR || parent = FASTA_DIR ||
      parent = SUBFRAGMENTS_DIR then
    some (fs, .error EACCES_C)
  else if parent = APPEND_DIR then
    let basename := fileStemOf name
    if fs.fragments.any (fun f => f.id == basename) && fs.noOverwrite then
      some (fs, .error EEXIST_C)
    else
      let i := fs.currentIno
      let pending : PendingAppend := { data := [], ino := i, seqIno := i + 1, fastaIno := i + 2 }
      let pends := fs.pendingAppends ++ [(basename, pending)]
      some ({ fs with currentIno := i + 3, pendingAppends := pends }, .entry)
  else some (fs, .error ENOENT_C)

/-- The merge step of `release` for the pending append being closed
(`fs.rs:1650-1691`): parse the accumulated bytes with the raw-bytes
reader, evict fragments sharing a new key when overwriting is allowed,
and append one fragment per parsed sequence — every one of them reusing
the pending's two reserved inodes, with `Fragment::new` receiving
`(pending.seq_ino, pending.fasta_ino)` for its
`(fasta_ino, seq_ino)` parameters, as in the source. -/
def integrateNews (p : PendingAppend) (noOv : Bool) (oldKeys : List Bytes) :
    List Fasta.Descriptor → Option (List Fragment)
  | [] => some []
  | nf :: rest => do
    let tail ← integrateNews p noOv oldKeys rest
    if oldKeys.contains nf.id && noOv then some tail
    else
      match nf.seq with
      | some sq => some (Fragment.mk' nf.id nf.name (.pureBuffer sq) p.seqIno p.fastaIno :: tail)
      | none => none

def mergePending (p : PendingAppend) (fs : FustaFS) : Option FustaFS := do
  let news := Fasta.specFastaRead true p.data
  let newKeys := news.map (fun d => d.id)
  let oldKeys := fs.fragments.map (fun f => f.id)
  let base := if !fs.noOverwrite
    then fs.fragments.filter (fun f => !(newKeys.contains f.id))
    else fs.fragments
  let add ← integrateNews p fs.noOverwrite oldKeys news
  some { fs with fragments := base ++ add }

/-- The `for pending in self.pending_appends` loop of `release`
(`fs.rs:1644-1692`): the dirty flag is raised for every pending append
iterated over — whatever inode is being released — and the pending
whose inode matches is parsed and merged. -/
def releaseLoop (ino : Nat) : List (Bytes × PendingAppend) → FustaFS → Option FustaFS
  | [], fs => some fs
  | (_, p) :: rest, fs =>
    let fs1 := { fs with dirty := true }
    if p.ino = ino then do
      let fs2 ← mergePending p fs1
      releaseLoop ino rest fs2
    else releaseLoop ino rest fs1

/-- Rust `FustaFS::release` (`fs.rs:1632-1700`): for a writable inode, run
the pending loop, then a non-forced concretize and a refresh; any
other inode only logs.  The reply is always `ok`. -/
def FustaFS.release (fs : FustaFS) (disk : Disk) (ino : Nat) :
    Option (FustaFS × Disk × Reply) :=
  if fs.isWriteable ino then do
    let fs1 ← releaseLoop ino fs.pendingAppends fs
    let (fs2, disk2) ← fs1.concretize false disk
    some (fs2.refreshMetadata false, disk2, .ok)
  else some (fs, disk, .ok)

/-- The subfragment arm of `FustaFS::read` (`fs.rs:1134-1145`): the
parent fragment is looked up by id and served
`pure_chunk(offset + start, size)`; a vanished parent is `ENOENT`. -/
def FustaFS.readSub (fs : FustaFS) (disk : Disk) (ino offset size : Nat) : Option Reply :=
  match fs.subfragmentFromIno ino with
  | some sf =>
    match fs.fragmentFromId sf.fragment with
    | some frag => (frag.data.pureChunk disk (offset + sf.start) size).map .data
    | none => some (.error ENOENT_C)
  | none => some (.error ENOENT_C)

/-- Building the fragment list at load (`fs.rs:588-620`): reject ids
holding a forbidden character (backslash or NUL), choose the backing
from the cache policy, and allocate the `.fa` then the `.seq` inode
from the monotone counter. -/
def initialBacking (cache : Cache) (fn : String) (file : Bytes) (d : Fasta.Descriptor) :
    Option Backing :=
  match cache with
  | .mmap => some (.mmap (sliceL file d.pos.1 (d.pos.1 + d.len)))
  | .file => some (.file fn d.pos.1 d.pos.2)
  | .ram => d.seq.map .pureBuffer

def buildFrags (cache : Cache) (fn : String) (file : Bytes) (ino0 : Nat) :
    List Fasta.Descriptor → Option (List Fragment × Nat)
  | [] => some ([], ino0)
  | d :: rest =>
    if d.id.any (fun c => c == 92 || c == 0) then none
    else
      match initialBacking cache fn file d with
      | none => none
      | some bk =>
        match buildFrags cache fn file (ino0 + 2) rest with
        | none => none
        | some (rest', ino') =>
          some (Fragment.mk' d.id d.name bk ino0 (ino0 + 1) :: rest', ino')

/-- Rust `FustaFS::new` plus `read_fasta` (`fs.rs:464-624`): parse the source
(raw bytes are requested exactly when the cache policy is RAM), refuse
duplicate ids, build the fragments and refresh the metadata.  The
resulting model is not dirty. -/
def readFastaFS (cache : Cache) (threshold : Nat) (noOv : Bool) (fn : String) (disk : Disk) :
    Option FustaFS :=
  if !((Fasta.specFastaRead (cache == Cache.ram) (disk fn)).map (fun d => d.id)).Nodup
  then none
  else
    match buildFrags cache fn (disk fn) FIRST_INO
        (Fasta.specFastaRead (cache == Cache.ram) (disk fn)) with
    | none => none
    | some (frags, ino') =>
      some (FustaFS.refreshMetadata
        { fragments := frags, name2fragment := [], ino2fragment := [],
          filename := fn, cache := cache, concretizeThreshold := threshold,
          noOverwrite := noOv, currentIno := ino', pendingAppends := [],
          subfragments := [], dirty := false } true)

/-- Mount, read back, unmount (`Drop for FustaFS`, `fs.rs:958-962`,
after `destroy`, `fs.rs:1529-1532`): reads do not touch the embedded
state, `destroy` runs a non-forced concretize, `Drop` a forced one. -/
def roundTrip (cache : Cache) (threshold : Nat) (noOv : Bool) (fn : String) (disk : Disk) :
    Option (FustaFS × Disk) :=
  match readFastaFS cache threshold noOv fn disk with
  | none => none
  | some fs =>
    match fs.concretize false disk with
    | none => none
    | some (fs1, disk1) =>
      match fs1.concretize true disk1 with
      | none => none
      | some (fs2, disk2) => some (fs2, disk2)

/-! ### Concrete states used by witnesses and counterexamples -/

def fnC : String := "f"

def emptyDisk : Disk := fun _ => []

/-- Contents `">a\nACGT\n"`. -/
def dsk1 : Disk := fun n => if n = fnC then [62, 97, 10, 65, 67, 71, 84, 10] else []

/-- Contents `">a\nAA\n>b\nCC\n"`. -/
def dsk2 : Disk := fun n =>
  if n = fnC then [62, 97, 10, 65, 65, 10, 62, 98, 10, 67, 67, 10] else []

/-- Contents `">x\nAC\nGT\n"`. -/
def dsk5 : Disk := fun n =>
  if n = fnC then [62, 120, 10, 65, 67, 10, 71, 84, 10] else []

/-- Contents `">a\nAC\nGT\n"`. -/
def dsk9 : Disk := fun n =>
  if n = fnC then [62, 97, 10, 65, 67, 10, 71, 84, 10] else []

def defaultFS : FustaFS :=
  { fragments := [], name2fragment := [], ino2fragment := [], filename := fnC,
    cache := Cache.file, concretizeThreshold := 0, noOverwrite := false,
    currentIno := FIRST_INO, pendingAppends := [], subfragments := [], dirty := false }

/-- The model mounted over `dsk1` with the file-slice cache policy. -/
def fsA : FustaFS := (readFastaFS Cache.file 1000 false fnC dsk1).getD defaultFS

/-- State `fsA` with a subfragment `x:2-3`-style window (start 1) handed out
under inode 30 over the fragment of `dsk5`. -/
def fs5 : FustaFS :=
  { (readFastaFS Cache.file 1000 false fnC dsk5).getD defaultFS with
    subfragments := [(30, { fragment := [120], start := 1 })] }

-- name byte strings: "a.seq", "renamed.seq", "renamed", "nope.seq", "b", "p"
def nmASeq : Bytes := [97, 46, 115, 101, 113]
def nmRenamedSeq : Bytes := [114, 101, 110, 97, 109, 101, 100, 46, 115, 101, 113]
def nmRenamed : Bytes := [114, 101, 110, 97, 109, 101, 100]
def nmNopeSeq : Bytes := [110, 111, 112, 101, 46, 115, 101, 113]

/-! ### Helper lemmas -/

theorem sliceL_add (l : Bytes) (s n : Nat) : sliceL l s (s + n) = (l.drop s).take n := by
  unfold sliceL
  congr 1
  omega

theorem all_ne_of_mem_filter {b : Bytes} {s n : Nat} :
    ((((b.filter (· != 10))).drop s).take n).all (· != 10) = true := by
  rw [List.all_eq_true]
  intro x hx
  have hx2 : x ∈ (b.filter (· != 10)).drop s := List.take_subset _ _ hx
  have hx3 : x ∈ b.filter (· != 10) := List.drop_subset _ _ hx2
  exact (List.mem_filter.mp hx3).2

theorem all_ne_of_all {b : Bytes} {s n : Nat} (h : b.all (· != 10) = true) :
    ((b.drop s).take n).all (· != 10) = true := by
  rw [List.all_eq_true] at h ⊢
  intro x hx
  exact h x (List.drop_subset _ _ (List.take_subset _ _ hx))

/-! ### Claim C3 -/

/-- C3: the claim says renaming `a.seq` to `renamed.seq` inside `seqs/`
strips the `.seq` extension and yields id `renamed`.  The code compares
`Path::extension(newname)` (never containing a dot) against
`DOTLESS_SEQ_EXT = ".seq"` (containing one), so the extension is never
stripped: the fragment ends up with id `renamed.seq`, seq file
`renamed.seq.seq` and fa file `renamed.seq.fa`.  This theorem evaluates
the embedded rename at that failing input. -/
theorem rename_seq_extension_kept :
    (readFastaFS Cache.file 1000 false fnC dsk1).bind
        (fun fs => (fs.rename dsk1 SEQ_DIR nmASeq SEQ_DIR nmRenamedSeq).map
          (fun r => (r.1.fragments.map (fun f => (f.id, f.fastaFile.name, f.seqFile.name)),
            r.2.2))) =
      some ([(nmRenamedSeq,
              [114, 101, 110, 97, 109, 101, 100, 46, 115, 101, 113, 46, 102, 97],
              [114, 101, 110, 97, 109, 101, 100, 46, 115, 101, 113, 46, 115, 101, 113])],
        Reply.ok) ∧
    nmRenamedSeq ≠ nmRenamed := by
  constructor
  · decide
  · decide

/-! ### Claim C7 -/

/-- C7: a write to a writable inode whose byte stream holds any byte
outside the permitted FASTA set fails the whole call with the
invalid-data reply (`EIO` in the code) and mutates nothing: the state
returned is the input state, so the fragment backing, the sizes, the
pending buffers and the dirty flag are all untouched. -/
theorem write_invalid_rejected_unchanged (fs : FustaFS) (disk : Disk)
    (ino offset : Nat) (data : Bytes)
    (hw : fs.isWriteable ino = true) (hbad : data.all isFastaChar = false) :
    fs.write disk ino offset data = some (fs, .error EIO_C) := by
  unfold FustaFS.write
  rw [hw, hbad]
  simp

theorem write_invalid_rejected_unchanged_witness :
    fsA.isWriteable 21 = true ∧ ([65, 32, 67] : Bytes).all isFastaChar = false ∧
      fsA.write dsk1 21 0 [65, 32, 67] = some (fsA, .error EIO_C) :=
  ⟨by decide, by decide,
    write_invalid_rejected_unchanged fsA dsk1 21 0 [65, 32, 67] (by decide) (by decide)⟩

/-! ### Claim C8 -/

/-- C8: the spec says error replies never mutate the model; the claim
instantiates this for a rename whose source name matches no fragment,
with a colliding new id and overwriting allowed.  The code evicts the
colliding fragment before looking the source up, so on the state
mounted from `">a\nAA\n>b\nCC\n"` the call
`rename(seqs/, "nope.seq" -> "b")` replies `ENOENT` yet drops
fragment `b`: the fragment set shrinks from `[a, b]` to `[a]`. -/
theorem rename_missing_source_evicts :
    (readFastaFS Cache.file 1000 false fnC dsk2).map
        (fun fs => fs.fragments.map (fun f => f.id)) = some [[97], [98]] ∧
    (readFastaFS Cache.file 1000 false fnC dsk2).bind
        (fun fs => (fs.rename dsk2 SEQ_DIR nmNopeSeq SEQ_DIR [98]).map
          (fun r => (r.1.fragments.map (fun f => f.id), r.2.2))) =
      some ([[97]], Reply.error ENOENT_C) := by
  constructor
  · decide
  · decide

/-! ### Claim C10 -/

/-- C10 counterexample: releasing a fragment's `.seq` inode (which is
writable but not a pending append) while an unrelated pending append
exists is not a no-op — the `for pending` loop of `release` raises the
dirty flag for every pending append before checking its inode.  Here
the mounted model (dirty = false) gains a pending append `p` through
`mknod`, and releasing the `.seq` inode 21 flips dirty to true. -/
theorem release_seq_counterexample :
    (readFastaFS Cache.file 1000 false fnC dsk1).bind
        (fun fs => (fs.mknod APPEND_DIR [112]).bind
          (fun m => (m.1.release dsk1 21).map
            (fun r => (m.1.isWriteable 21, m.1.isAppendFile 21, m.1.dirty,
              r.1.dirty, r.2.2)))) =
      some (true, false, false, true, Reply.ok) := by
  decide

/-- C10 amended: for every inode that is not writable — neither a
pending append nor a fragment's `.seq` inode — release is a no-op
beyond logging: it replies ok and leaves the state and the disk
unchanged.  (Releasing a `.seq` inode, by contrast, raises the dirty
flag whenever any pending append exists and triggers the non-forced
concretize and refresh, per the counterexample.) -/
theorem release_nonwritable_noop (fs : FustaFS) (disk : Disk) (ino : Nat)
    (h : fs.isWriteable ino = false) :
    fs.release disk ino = some (fs, disk, .ok) := by
  unfold FustaFS.release
  rw [h]
  simp

theorem release_nonwritable_noop_witness :
    fsA.isWriteable 20 = false ∧ fsA.release dsk1 20 = some (fsA, dsk1, .ok) :=
  ⟨by decide, release_nonwritable_noop fsA dsk1 20 (by decide)⟩

/-! ### Claim C6 -/

/-- C6 counterexample: the claim says `pure_chunk` on a `PureBuffer`
with `offset + size` exceeding the buffer length returns the clamped
suffix; the code takes the raw slice `b[offset..offset + size]`, which
panics (`none`) instead of returning the clamped `[66, 67]`. -/
theorem chunk_total_counterexample :
    Backing.pureChunk emptyDisk (.pureBuffer [65, 66, 67]) 1 5 = none ∧
    sliceL [65, 66, 67] 1 3 = [66, 67] := by
  constructor
  · decide
  · decide

/-- C6 amended: `pure_chunk` is total (and clamping) on the FileSlice,
Buffer and MMap variants, but on a PureBuffer it succeeds exactly when
`offset + size` fits; `chunk` on Buffer/MMap succeeds exactly when
`offset` does not exceed the length (returning the requested range
intersected with the length), and on a FileSlice it `read_exact`s
`size` bytes from the backing file at `start + offset` with no
clamping against the slice, succeeding exactly when that many bytes
remain. -/
theorem chunk_totality_spec (disk : Disk) (fn : String) (b : Bytes) (s e off sz : Nat) :
    (Backing.pureChunk disk (.file fn s e) off sz).isSome = true ∧
    (Backing.pureChunk disk (.buffer b) off sz).isSome = true ∧
    (Backing.pureChunk disk (.mmap b) off sz).isSome = true ∧
    ((Backing.pureChunk disk (.pureBuffer b) off sz).isSome = true ↔ off + sz ≤ b.length) ∧
    ((Backing.chunk disk (.buffer b) off sz).isSome = true ↔ off ≤ b.length) ∧
    ((Backing.chunk disk (.mmap b) off sz).isSome = true ↔ off ≤ b.length) ∧
    ((Backing.chunk disk (.file fn s e) off sz).isSome = true ↔
      sz ≤ (disk fn).length - (s + off)) ∧
    (off ≤ b.length →
      Backing.chunk disk (.buffer b) off sz = some (sliceL b off (min (off + sz) b.length))) ∧
    (off + sz ≤ b.length →
      Backing.pureChunk disk (.pureBuffer b) off sz = some (sliceL b off (off + sz))) := by
  refine ⟨rfl, rfl, rfl, ?_, ?_, ?_, ?_, ?_, ?_⟩
  · simp [Backing.pureChunk]
  · simp [Backing.chunk]
  · simp [Backing.chunk]
  · simp [Backing.chunk, readExactAt]
  · intro h
    simp only [Backing.chunk, if_pos h, sliceL, Option.some.injEq]
    rw [List.take_eq_take]
    simp [List.length_drop]
    omega
  · intro h
    simp only [Backing.pureChunk, if_pos h, sliceL, Option.some.injEq]
    congr 1
    omega

theorem chunk_totality_spec_witness :
    (0 + 2 ≤ ([65, 66, 67] : Bytes).length) ∧
      Backing.chunk emptyDisk (.buffer [65, 66, 67]) 0 2 =
        some (sliceL [65, 66, 67] 0 (min (0 + 2) ([65, 66, 67] : Bytes).length)) :=
  ⟨by decide,
    (chunk_totality_spec emptyDisk fnC [65, 66, 67] 0 0 0 2).2.2.2.2.2.2.2.1 (by decide)⟩

/-! ### Claim C5 -/

/-- Written from the spec's words: the newline-free body bytes of a
backing, of which a subfragment read is supposed to serve a window. -/
def pureBytesOf (disk : Disk) : Backing → Bytes
  | .file fn s e => (sliceL (disk fn) s e).filter (· != 10)
  | .buffer b => b.filter (· != 10)
  | .pureBuffer b => b
  | .mmap b => b.filter (· != 10)

/-- C5 counterexample: on a FileSlice-backed parent with body
`"AC\nGT"` (file `">x\nAC\nGT\n"`, slice `[3, 8)`), the subfragment
with start 1 read at offset 0 for 2 bytes should, per the claim, serve
the newline-free window `"CG"`; the code seeks to `start + offset` and
then additionally skips `offset` newline-free bytes (and reads to the
end of the file), so it serves `"GT"`. -/
theorem subfragment_read_counterexample :
    fs5.fragments.map (fun f => f.data) = [.file fnC 3 8] ∧
    fs5.readSub dsk5 30 0 2 = some (.data [71, 84]) ∧
    sliceL (pureBytesOf dsk5 (.file fnC 3 8)) 1 3 = [67, 71] ∧
    ([71, 84] : Bytes) ≠ [67, 71] := by
  refine ⟨by decide, by decide, by decide, by decide⟩

/-- C5 amended: the subfragment read serves
`pure_chunk(offset + start, size)` of the parent, and for a Buffer- or
MMap-backed parent this is exactly the claimed window — the first
`size` newline-free body bytes from newline-free position
`offset + start`, clamped — and never contains a newline.  For a
PureBuffer parent the same holds provided the buffer respects its
no-newline invariant and the window fits (the code panics instead of
clamping otherwise, and a FileSlice parent misbehaves per the
counterexample). -/
theorem subfragment_read_spec (disk : Disk) (fs : FustaFS) (ino off n : Nat)
    (sf : SubFragment) (frag : Fragment)
    (h1 : fs.subfragmentFromIno ino = some sf)
    (h2 : fs.fragmentFromId sf.fragment = some frag) :
    ((∃ b, frag.data = .buffer b) ∨ (∃ b, frag.data = .mmap b) →
      fs.readSub disk ino off n =
        some (.data (sliceL (pureBytesOf disk frag.data)
          (off + sf.start) (off + sf.start + n))) ∧
      ∀ r, fs.readSub disk ino off n = some (.data r) → r.all (· != 10) = true) ∧
    (∀ b, frag.data = .pureBuffer b → b.all (· != 10) = true →
      off + sf.start + n ≤ b.length →
      fs.readSub disk ino off n =
        some (.data (sliceL (pureBytesOf disk frag.data)
          (off + sf.start) (off + sf.start + n))) ∧
      ∀ r, fs.readSub disk ino off n = some (.data r) → r.all (· != 10) = true) := by
  constructor
  · rintro (⟨b, hb⟩ | ⟨b, hb⟩) <;>
    · unfold FustaFS.readSub
      rw [h1]
      dsimp only
      rw [h2]
      dsimp only
      rw [hb, sliceL_add]
      constructor
      · simp [Backing.pureChunk, pureBytesOf]
      · intro r hr
        simp only [Backing.pureChunk, Option.map] at hr
        injection hr with hr2
        injection hr2 with hr3
        rw [← hr3]
        exact all_ne_of_mem_filter
  · intro b hb hpure hfit
    unfold FustaFS.readSub
    rw [h1]
    dsimp only
    rw [h2]
    dsimp only
    rw [hb, sliceL_add]
    constructor
    · simp [Backing.pureChunk, pureBytesOf, if_pos hfit]
    · intro r hr
      simp only [Backing.pureChunk, if_pos hfit, Option.map] at hr
      injection hr with hr2
      injection hr2 with hr3
      rw [← hr3]
      exact all_ne_of_all hpure

/-- State `fs5` with the parent fragment rebased onto an in-memory buffer
holding the same body, for the C5 witness. -/
def fs5b : FustaFS :=
  let frag := Fragment.mk' [120] none (Backing.buffer [65, 67, 10, 71, 84]) 20 21
  { fs5 with fragments := [frag], name2fragment := [([120], 0)] }

def frag5b : Fragment := Fragment.mk' [120] none (Backing.buffer [65, 67, 10, 71, 84]) 20 21

theorem subfragment_read_spec_witness :
    fs5b.subfragmentFromIno 30 = some { fragment := [120], start := 1 } ∧
    fs5b.readSub dsk5 30 0 2 =
      some (.data (sliceL (pureBytesOf dsk5 (.buffer [65, 67, 10, 71, 84])) (0 + 1) (0 + 1 + 2))) := by
  constructor
  · decide
  · exact ((subfragment_read_spec dsk5 fs5b 30 0 2
      { fragment := [120], start := 1 } frag5b
      (by decide) (by decide)).1 (Or.inl ⟨_, rfl⟩)).1

/-! ### Claim C2 -/

/-- The invariant of the concretize fragment loop: it writes exactly
the canonical serialization, and every fragment is rebased onto a
range of the written bytes that reads back as its body followed by the
optional appended newline. -/
theorem concretizeLoop_spec (fn : String) (disk : Disk) :
    ∀ (frags : List Fragment) (idx : Nat) (frags2 : List Fragment) (out : Bytes),
    concretizeLoop fn disk frags idx = some (frags2, out) →
    frags2.length = frags.length ∧
    canonicalFileOf disk frags = some out ∧
    ∀ i f, frags.get? i = some f → ∃ b s e,
      f.data.snapshot disk = some b ∧
      frags2.get? i = some (rebased fn f s e) ∧
      e = s + b.length + (nlPad b).length ∧ idx ≤ s ∧ e ≤ idx + out.length ∧
      sliceL out (s - idx) (e - idx) = b ++ nlPad b := by
  intro frags
  induction frags with
  | nil =>
    intro idx frags2 out h
    simp only [concretizeLoop, Option.some.injEq, Prod.mk.injEq] at h
    obtain ⟨h1, h2⟩ := h
    subst h1
    subst h2
    refine ⟨rfl, rfl, ?_⟩
    intro i f hf
    simp at hf
  | cons f0 rest ih =>
    intro idx frags2 out h
    simp only [concretizeLoop] at h
    cases hb : f0.data.snapshot disk with
    | none => rw [hb] at h; simp at h
    | some b0 =>
      rw [hb] at h
      dsimp only at h
      cases hr : concretizeLoop fn disk rest
          (idx + f0.label.length + b0.length + (nlPad b0).length) with
      | none => rw [hr] at h; simp at h
      | some pr =>
        obtain ⟨rest2, out2⟩ := pr
        rw [hr] at h
        dsimp only at h
        simp only [Option.some.injEq, Prod.mk.injEq] at h
        obtain ⟨h1, h2⟩ := h
        subst h1
        subst h2
        obtain ⟨ihlen, ihcanon, ihslice⟩ :=
          ih (idx + f0.label.length + b0.length + (nlPad b0).length) rest2 out2 hr
        refine ⟨by simp [ihlen], ?_, ?_⟩
        · simp only [canonicalFileOf, hb, ihcanon]
        · intro i f hf
          cases i with
          | zero =>
            simp only [List.get?] at hf
            injection hf with hf
            subst hf
            refine ⟨b0, idx + f0.label.length,
              idx + f0.label.length + b0.length + (nlPad b0).length,
              hb, rfl, by omega, by omega, ?_, ?_⟩
            · simp only [List.length_append]
              omega
            · have ha : f0.label ++ b0 ++ nlPad b0 ++ out2 =
                  f0.label ++ ((b0 ++ nlPad b0) ++ out2) := by
                simp [List.append_assoc]
              have hs : idx + f0.label.length - idx = f0.label.length := by omega
              have he2 : idx + f0.label.length + b0.length + (nlPad b0).length - idx =
                  f0.label.length + (b0.length + (nlPad b0).length) := by omega
              rw [hs, he2, sliceL_add, ha, List.drop_left]
              exact List.take_left' (by simp)
          | succ i2 =>
            simp only [List.get?] at hf
            obtain ⟨b, s, e, hsnap, hget, he, hles, hlee, hslice⟩ := ihslice i2 f hf
            refine ⟨b, s, e, hsnap, by simpa using hget, he, by omega, ?_, ?_⟩
            · simp only [List.length_append]
              omega
            · have hpre : (f0.label ++ b0 ++ nlPad b0).length =
                  f0.label.length + b0.length + (nlPad b0).length := by
                simp
                omega
              have ha : f0.label ++ b0 ++ nlPad b0 ++ out2 =
                  (f0.label ++ b0 ++ nlPad b0) ++ out2 := by
                simp [List.append_assoc]
              have hsplit : s - idx = (f0.label ++ b0 ++ nlPad b0).length +
                  (s - (idx + f0.label.length + b0.length + (nlPad b0).length)) := by
                rw [hpre]; omega
              unfold sliceL
              rw [ha, hsplit, ← List.drop_drop, List.drop_left]
              unfold sliceL at hslice
              have harg : e - idx - ((f0.label ++ b0 ++ nlPad b0).length +
                  (s - (idx + f0.label.length + b0.length + (nlPad b0).length))) =
                  e - (idx + f0.label.length + b0.length + (nlPad b0).length) -
                  (s - (idx + f0.label.length + b0.length + (nlPad b0).length)) := by
                rw [hpre]; omega
              rw [harg]
              exact hslice

/-- A dirty model holding the single fragment `a` with buffer body
`"AC"`. -/
def fsC2 : FustaFS :=
  { fragments := [Fragment.mk' [97] none (.buffer [65, 67]) 20 21],
    name2fragment := [([97], 0)], ino2fragment := [(20, 0), (21, 0)], filename := fnC,
    cache := Cache.file, concretizeThreshold := 1000, noOverwrite := false,
    currentIno := 22, pendingAppends := [], subfragments := [], dirty := true }

/-- C2 counterexample: concretizing a single dirty fragment with body
`"AC"` (no trailing newline) writes `">a\nAC\n"` and rebases the
fragment onto `FileSlice("f", 3, 6)` — the recorded end covers the
appended newline, so reading `[3, 6)` of the rewritten source yields
`"AC\n"`, not the body `"AC"` as the claim states. -/
theorem concretize_range_counterexample :
    (fsC2.concretize true dsk1).map
        (fun r => (r.1.fragments.map (fun f => f.data), r.2 fnC)) =
      some ([Backing.file fnC 3 6], [62, 97, 10, 65, 67, 10]) ∧
    sliceL [62, 97, 10, 65, 67, 10] 3 6 = [65, 67, 10] ∧
    ([65, 67, 10] : Bytes) ≠ [65, 67] := by
  refine ⟨by decide, by decide, by decide⟩

/-- C2 amended: after a successful (forced) concretization of a dirty
model, the rewritten source file is exactly the canonical
serialization (label, body, plus one `\n` only when the body is
nonempty and does not already end in one), the model is clean, and
every fragment is rebased onto a `FileSlice(source, start, end)` whose
range reads back from the new file as its body followed by that
optional appended newline — i.e. exactly the body when the body is
empty or already newline-terminated, and the body plus `"\n"`
otherwise. -/
theorem concretize_canonical_spec (fs : FustaFS) (disk : Disk) (fs2 : FustaFS) (disk2 : Disk)
    (hd : fs.dirty = true) (h : fs.concretize true disk = some (fs2, disk2)) :
    canonicalFileOf disk fs.fragments = some (disk2 fs.filename) ∧
    fs2.dirty = false ∧
    fs2.fragments.length = fs.fragments.length ∧
    ∀ i f, fs.fragments.get? i = some f → ∃ b s e,
      f.data.snapshot disk = some b ∧
      fs2.fragments.get? i = some (rebased fs.filename f s e) ∧
      e ≤ (disk2 fs.filename).length ∧
      sliceL (disk2 fs.filename) s e = b ++ nlPad b := by
  have hu : fs.concretize true disk =
      (match concretizeLoop fs.filename disk fs.fragments 0 with
      | none => none
      | some pr =>
        some ({ fs with fragments := pr.1, dirty := false },
          fun n => if n = fs.filename then pr.2 else disk n)) := by
    unfold FustaFS.concretize
    rw [if_neg (by simp [hd])]
    simp only [Bool.not_true, Bool.false_and, Bool.false_or, if_false]
    cases concretizeLoop fs.filename disk fs.fragments 0 with
    | none => rfl
    | some pr => rfl
  rw [hu] at h
  cases hl : concretizeLoop fs.filename disk fs.fragments 0 with
  | none => rw [hl] at h; simp at h
  | some pr =>
    obtain ⟨frags2, out⟩ := pr
    rw [hl] at h
    dsimp only at h
    simp only [Option.some.injEq, Prod.mk.injEq] at h
    obtain ⟨h1, h2⟩ := h
    obtain ⟨len2, canon2, slice2⟩ :=
      concretizeLoop_spec fs.filename disk fs.fragments 0 frags2 out hl
    have hfile : disk2 fs.filename = out := by
      rw [← h2]
      simp
    refine ⟨by rw [hfile]; exact canon2, by rw [← h1], ?_, ?_⟩
    · rw [← h1]
      exact len2
    · intro i f hf
      obtain ⟨b, s, e, hsnap, hget, he, hles, hlee, hslice⟩ := slice2 i f hf
      refine ⟨b, s, e, hsnap, ?_, ?_, ?_⟩
      · rw [← h1]
        exact hget
      · rw [hfile]
        omega
      · rw [hfile]
        have hs0 : s - 0 = s := by omega
        have he0 : e - 0 = e := by omega
        rw [← hs0, ← he0]
        exact hslice

/-- The concrete fragment set behind the C2 witness: `a` with body
`"ACGT\n"` (newline-terminated) and `b` with body `"CC"` (not). -/
def fsC2w : FustaFS :=
  { fragments :=
      [Fragment.mk' [97] none (.buffer [65, 67, 71, 84, 10]) 20 21,
       Fragment.mk' [98] none (.buffer [67, 67]) 22 23],
    name2fragment := [([97], 0), ([98], 1)],
    ino2fragment := [(20, 0), (21, 0), (22, 1), (23, 1)], filename := fnC,
    cache := Cache.file, concretizeThreshold := 1000, noOverwrite := false,
    currentIno := 24, pendingAppends := [], subfragments := [], dirty := true }

/-- The concrete result of concretizing `fsC2w`. -/
def c2res : FustaFS × Disk := (fsC2w.concretize true dsk1).getD (defaultFS, dsk1)

theorem concretize_canonical_spec_witness :
    fsC2w.dirty = true ∧
    canonicalFileOf dsk1 fsC2w.fragments = some (c2res.2 fsC2w.filename) ∧
    c2res.1.dirty = false :=
  ⟨rfl,
   (concretize_canonical_spec fsC2w dsk1 c2res.1 c2res.2 rfl (by rfl)).1,
   (concretize_canonical_spec fsC2w dsk1 c2res.1 c2res.2 rfl (by rfl)).2.1⟩

/-! ### Claim C4 -/

theorem updateIndices_parts (fs : FustaFS) :
    fs.updateIndices.fragments = fs.fragments ∧
    fs.updateIndices.currentIno = fs.currentIno ∧
    fs.updateIndices.dirty = fs.dirty := ⟨rfl, rfl, rfl⟩

theorem refreshMetadata_parts (fs : FustaFS) (force : Bool) :
    (fs.refreshMetadata force).fragments = fs.fragments ∧
    (fs.refreshMetadata force).currentIno = fs.currentIno ∧
    (fs.refreshMetadata force).dirty = fs.dirty := by
  unfold FustaFS.refreshMetadata
  split
  · exact updateIndices_parts fs
  · exact ⟨rfl, rfl, rfl⟩

/-- The inode-allocation invariant of the load loop: the `.fa` and
`.seq` inodes of the `i`-th fragment are `ino0 + 2i` and
`ino0 + 2i + 1`, and the counter ends at `ino0 + 2n`. -/
theorem buildFrags_inos (cache : Cache) (fn : String) (file : Bytes) :
    ∀ (ds : List Fasta.Descriptor) (n0 : Nat) (frags : List Fragment) (n1 : Nat),
    buildFrags cache fn file n0 ds = some (frags, n1) →
    n1 = n0 + 2 * frags.length ∧ frags.length = ds.length ∧
    ∀ i f, frags.get? i = some f →
      f.fastaFile.ino = n0 + 2 * i ∧ f.seqFile.ino = n0 + 2 * i + 1 := by
  intro ds
  induction ds with
  | nil =>
    intro n0 frags n1 h
    simp only [buildFrags, Option.some.injEq, Prod.mk.injEq] at h
    obtain ⟨h1, h2⟩ := h
    subst h1
    subst h2
    refine ⟨by simp, rfl, ?_⟩
    intro i f hf
    simp at hf
  | cons d rest ih =>
    intro n0 frags n1 h
    simp only [buildFrags] at h
    by_cases hforb : d.id.any (fun c => c == 92 || c == 0)
    · rw [if_pos hforb] at h
      simp at h
    · rw [if_neg hforb] at h
      cases hbk : initialBacking cache fn file d with
      | none => rw [hbk] at h; simp at h
      | some bk =>
        rw [hbk] at h
        dsimp only at h
        cases hr : buildFrags cache fn file (n0 + 2) rest with
        | none => rw [hr] at h; simp at h
        | some pr =>
          obtain ⟨rest2, ino2⟩ := pr
          rw [hr] at h
          dsimp only at h
          simp only [Option.some.injEq, Prod.mk.injEq] at h
          obtain ⟨h1, h2⟩ := h
          subst h1
          subst h2
          obtain ⟨ih1, ih2, ih3⟩ := ih (n0 + 2) rest2 ino2 hr
          refine ⟨by simp [ih1]; omega, by simp [ih2], ?_⟩
          intro i f hf
          cases i with
          | zero =>
            simp only [List.get?] at hf
            injection hf with hf
            subst hf
            constructor
            · simp [Fragment.mk']
            · simp [Fragment.mk']
          | succ i2 =>
            simp only [List.get?] at hf
            obtain ⟨ha, hb⟩ := ih3 i2 f hf
            constructor
            · rw [ha]; omega
            · rw [hb]; omega

/-- A model holding no fragments and one pending append whose
accumulated bytes are the two-sequence blob `">x\nAA\n>y\nBB\n"`,
with the pending's inode 20 and reserved inodes 21 and 22. -/
def fsP : FustaFS :=
  { fragments := [], name2fragment := [], ino2fragment := [], filename := fnC,
    cache := Cache.file, concretizeThreshold := 1000, noOverwrite := false,
    currentIno := 23,
    pendingAppends := [([112],
      { data := [62, 120, 10, 65, 65, 10, 62, 121, 10, 66, 66, 10],
        ino := 20, seqIno := 21, fastaIno := 22 })],
    subfragments := [], dirty := false }

/-- C4 counterexample: a pending append holding the two sequences
`">x\nAA\n>y\nBB\n"`, when released, materialises two distinct
fragments that both reuse the pending's reserved inode pair — and
moreover with the pair swapped, `Fragment::new` receiving
`(seq_ino, fasta_ino)` for `(fasta_ino, seq_ino)`.  The four inodes
of the two fragments collapse to two values, refuting pairwise
distinctness. -/
theorem append_inode_reuse_counterexample :
    (fsP.release dsk1 20).map
        (fun r => r.1.fragments.map (fun f => (f.id, f.fastaFile.ino, f.seqFile.ino))) =
      some [([120], 21, 22), ([121], 21, 22)] ∧
    ([120] : Bytes) ≠ [121] := by
  refine ⟨by decide, by decide⟩

/-- C4 amended: the claim's distinctness does hold for the fragments
of the initial load: mounting gives the `i`-th fragment the inodes
`FIRST_INO + 2i` (.fa) and `FIRST_INO + 2i + 1` (.seq), so the four
inodes of two distinct fragments are pairwise distinct, distinct
within a fragment, and at least `FIRST_INO = 20` — above every
reserved inode (1-5, 10-12); the counter is monotone
(`currentIno = FIRST_INO + 2n` after loading `n` fragments) and never
reused.  It fails for multi-sequence appends: every fragment finalized
from one pending append shares that append's reserved pair (see the
counterexample). -/
theorem load_inode_distinct_spec (cache : Cache) (threshold : Nat) (noOv : Bool)
    (fn : String) (disk : Disk) (fs : FustaFS)
    (h : readFastaFS cache threshold noOv fn disk = some fs) :
    fs.currentIno = FIRST_INO + 2 * fs.fragments.length ∧
    (∀ i f, fs.fragments.get? i = some f →
      f.fastaFile.ino = FIRST_INO + 2 * i ∧ f.seqFile.ino = FIRST_INO + 2 * i + 1) ∧
    (∀ i j fi fj, fs.fragments.get? i = some fi → fs.fragments.get? j = some fj → i ≠ j →
      fi.fastaFile.ino ≠ fj.fastaFile.ino ∧ fi.seqFile.ino ≠ fj.seqFile.ino ∧
      fi.fastaFile.ino ≠ fj.seqFile.ino) ∧
    (∀ i f, fs.fragments.get? i = some f →
      f.fastaFile.ino ≠ f.seqFile.ino ∧
      FIRST_INO ≤ f.fastaFile.ino ∧ FIRST_INO ≤ f.seqFile.ino) := by
  unfold readFastaFS at h
  split at h
  · simp at h
  · rename_i hnodup
    cases hbf : buildFrags cache fn (disk fn)
        FIRST_INO (Fasta.specFastaRead (cache == Cache.ram) (disk fn)) with
    | none => rw [hbf] at h; simp at h
    | some pr =>
      obtain ⟨frags, ino'⟩ := pr
      rw [hbf] at h
      dsimp only at h
      injection h with h
      obtain ⟨hino, _, hinos⟩ :=
        buildFrags_inos cache fn (disk fn) _ FIRST_INO frags ino' hbf
      have hfr : fs.fragments = frags := by
        rw [← h]
        exact (refreshMetadata_parts _ true).1
      have hci : fs.currentIno = ino' := by
        rw [← h]
        exact (refreshMetadata_parts _ true).2.1
      rw [hfr, hci]
      refine ⟨hino, hinos, ?_, ?_⟩
      · intro i j fi fj hi hj hij
        obtain ⟨hfi1, hfi2⟩ := hinos i fi hi
        obtain ⟨hfj1, hfj2⟩ := hinos j fj hj
        refine ⟨?_, ?_, ?_⟩ <;> omega
      · intro i f hf
        obtain ⟨h1, h2⟩ := hinos i f hf
        refine ⟨?_, ?_, ?_⟩ <;> omega

/-- The model mounted over `dsk2` (two fragments). -/
def fsB : FustaFS := (readFastaFS Cache.file 1000 false fnC dsk2).getD defaultFS

theorem load_inode_distinct_spec_witness :
    fsB.currentIno = FIRST_INO + 2 * fsB.fragments.length :=
  (load_inode_distinct_spec Cache.file 1000 false fnC dsk2 fsB (by decide)).1

/-! ### Claim C9 -/

theorem readFastaFS_not_dirty (cache : Cache) (threshold : Nat) (noOv : Bool)
    (fn : String) (disk : Disk) (fs : FustaFS)
    (h : readFastaFS cache threshold noOv fn disk = some fs) : fs.dirty = false := by
  unfold readFastaFS at h
  split at h
  · simp at h
  · cases hbf : buildFrags cache fn (disk fn)
        FIRST_INO (Fasta.specFastaRead (cache == Cache.ram) (disk fn)) with
    | none => rw [hbf] at h; simp at h
    | some pr =>
      obtain ⟨frags, ino'⟩ := pr
      rw [hbf] at h
      dsimp only at h
      injection h with h
      rw [← h]
      exact (refreshMetadata_parts _ true).2.2

/-- Calling `concretize` on a clean model returns immediately, leaving state
and disk untouched. -/
theorem concretize_clean (fs : FustaFS) (disk : Disk) (force : Bool)
    (h : fs.dirty = false) : fs.concretize force disk = some (fs, disk) := by
  unfold FustaFS.concretize
  rw [if_pos h]

/-- C9 counterexample: mounting `">a\nAC\nGT\n"` (a wrapped body)
with the RAM cache, reading back and unmounting leaves the source
byte-identical to the original — nothing was dirty, so neither the
`destroy` nor the `Drop` concretize touches the disk — whereas the
canonical serialization of the initial fragment set is the single-line
`">a\nACGT\n"`.  The two differ, refuting the claim. -/
theorem roundtrip_counterexample :
    (roundTrip Cache.ram 1000 false fnC dsk9).map (fun r => r.2 fnC) =
      some [62, 97, 10, 65, 67, 10, 71, 84, 10] ∧
    (readFastaFS Cache.ram 1000 false fnC dsk9).bind
        (fun fs => canonicalFileOf dsk9 fs.fragments) =
      some [62, 97, 10, 65, 67, 71, 84, 10] ∧
    ([62, 97, 10, 65, 67, 10, 71, 84, 10] : Bytes) ≠ [62, 97, 10, 65, 67, 71, 84, 10] := by
  refine ⟨by decide, by decide, by decide⟩

/-- C9 amended: the round trip — mount, read every `.fa` back (reads
never touch the embedded state), unmount — leaves the source file
byte-identical to the *original* file, not to the canonical
serialization: the mounted model is clean, so both the `destroy` and
the `Drop` concretize return without writing. -/
theorem roundtrip_preserves_source (cache : Cache) (threshold : Nat) (noOv : Bool)
    (fn : String) (disk : Disk) (fs2 : FustaFS) (disk2 : Disk)
    (h : roundTrip cache threshold noOv fn disk = some (fs2, disk2)) :
    disk2 = disk ∧ readFastaFS cache threshold noOv fn disk = some fs2 := by
  unfold roundTrip at h
  cases hm : readFastaFS cache threshold noOv fn disk with
  | none => rw [hm] at h; simp at h
  | some fs0 =>
    rw [hm] at h
    dsimp only at h
    have hd : fs0.dirty = false := readFastaFS_not_dirty cache threshold noOv fn disk fs0 hm
    rw [concretize_clean fs0 disk false hd] at h
    dsimp only at h
    rw [concretize_clean fs0 disk true hd] at h
    dsimp only at h
    injection h with h
    injection h with h1 h2
    exact ⟨h2.symm, by rw [h1]⟩

/-- The model mounted over `dsk9` with the RAM cache. -/
def fs9 : FustaFS := (readFastaFS Cache.ram 1000 false fnC dsk9).getD defaultFS

theorem roundtrip_preserves_source_witness :
    roundTrip Cache.ram 1000 false fnC dsk9 = some (fs9, dsk9) ∧
    readFastaFS Cache.ram 1000 false fnC dsk9 = some fs9 :=
  ⟨by rfl, (roundtrip_preserves_source Cache.ram 1000 false fnC dsk9 fs9 dsk9 (by rfl)).2⟩

/-! ### Claim C1: line-splitting infrastructure -/

namespace Fasta

theorem takeWhile_all_of (v : Nat) (l : Bytes) (hl : ∀ x ∈ l, (x != v) = true) :
    l.takeWhile (· != v) = l := by
  induction l with
  | nil => rfl
  | cons c t ih =>
    have hc : (c != v) = true := hl c (by simp)
    simp only [List.takeWhile, hc]
    rw [ih (fun x hx => hl x (by simp [hx]))]

theorem takeWhile_stop (v : Nat) (l r : Bytes) (hl : ∀ x ∈ l, (x != v) = true) :
    (l ++ v :: r).takeWhile (· != v) = l := by
  rw [List.takeWhile_append_of_pos hl]
  simp [List.takeWhile]

theorem toLinesF_cons_eq (fuel : Nat) (b : Bytes) (hb : b ≠ []) :
    toLinesF (fuel + 1) b =
      (match b.drop ((b.takeWhile (· != 10)).length) with
      | [] => [(b.takeWhile (· != 10), false)]
      | _ :: rest => (b.takeWhile (· != 10), true) :: toLinesF fuel rest) := by
  cases b with
  | nil => exact absurd rfl hb
  | cons c t => rfl

theorem toLinesF_irrel : ∀ (f g : Nat) (b : Bytes),
    b.length ≤ f → b.length ≤ g → toLinesF f b = toLinesF g b := by
  intro f
  induction f with
  | zero =>
    intro g b hf _
    have hb : b = [] := List.length_eq_zero.mp (by omega)
    subst hb
    cases g <;> rfl
  | succ f ih =>
    intro g b hf hg
    cases b with
    | nil => cases g <;> rfl
    | cons c t =>
      cases g with
      | zero => simp at hg
      | succ g2 =>
        rw [toLinesF_cons_eq f (c :: t) (by simp), toLinesF_cons_eq g2 (c :: t) (by simp)]
        cases hdrop : (c :: t).drop (((c :: t).takeWhile (· != 10)).length) with
        | nil => rfl
        | cons x rest =>
          dsimp only
          have h1 := congrArg List.length hdrop
          simp only [List.length_drop, List.length_cons] at h1 hf hg
          have hrest : rest.length ≤ f ∧ rest.length ≤ g2 := by omega
          rw [ih g2 rest hrest.1 hrest.2]

theorem toLines_term (l r : Bytes) (hl : ∀ x ∈ l, (x != 10) = true) :
    toLines (l ++ 10 :: r) = (l, true) :: toLines r := by
  unfold toLines
  rw [toLinesF_cons_eq ((l ++ 10 :: r).length) (l ++ 10 :: r) (by simp)]
  rw [takeWhile_stop 10 l r hl, List.drop_left]
  dsimp only
  rw [toLinesF_irrel ((l ++ 10 :: r).length) (r.length + 1) r (by simp; omega) (by omega)]

theorem toLines_last (l : Bytes) (hne : l ≠ []) (hl : ∀ x ∈ l, (x != 10) = true) :
    toLines l = [(l, false)] := by
  obtain ⟨c, t, rfl⟩ := List.exists_cons_of_ne_nil hne
  unfold toLines
  rw [toLinesF_cons_eq ((c :: t).length) (c :: t) (by simp)]
  rw [takeWhile_all_of 10 (c :: t) hl, List.drop_length]

end Fasta

namespace Fasta

/-- Every line but the last is newline-terminated, and an unterminated
final line is nonempty (otherwise it would not round-trip through the
byte serialization). -/
def okTerm : List (Bytes × Bool) → Bool
  | [] => true
  | [(l, t)] => t || !l.isEmpty
  | (_, t) :: p :: rest => t && okTerm (p :: rest)

theorem flattenLines_cons (l : Bytes) (t : Bool) (rest : List (Bytes × Bool)) :
    flattenLines ((l, t) :: rest) =
      (l ++ if t then [10] else []) ++ flattenLines rest := by
  simp [flattenLines]

theorem flattenLines_append (a b : List (Bytes × Bool)) :
    flattenLines (a ++ b) = flattenLines a ++ flattenLines b := by
  simp [flattenLines]

/-- Splitting the serialization of well-behaved lines recovers exactly
those lines. -/
theorem toLines_flatten : ∀ ls : List (Bytes × Bool),
    (∀ p ∈ ls, p.1.all (· != 10) = true) → okTerm ls = true →
    toLines (flattenLines ls) = ls := by
  intro ls
  induction ls with
  | nil => intro _ _; rfl
  | cons p rest ih =>
    intro hall hok
    obtain ⟨l, t⟩ := p
    have hl : ∀ x ∈ l, (x != 10) = true := by
      have := hall (l, t) (by simp)
      rw [List.all_eq_true] at this
      exact this
    rw [flattenLines_cons]
    cases t with
    | true =>
      rw [show (l ++ if (true : Bool) = true then [10] else []) ++ flattenLines rest =
          l ++ 10 :: flattenLines rest by simp]
      rw [toLines_term l (flattenLines rest) hl]
      have hok2 : okTerm rest = true := by
        cases rest with
        | nil => rfl
        | cons q rest2 =>
          simp only [okTerm, Bool.and_eq_true] at hok
          exact hok.2
      rw [ih (fun q hq => hall q (by simp [hq])) hok2]
    | false =>
      cases rest with
      | cons q rest2 => simp [okTerm] at hok
      | nil =>
        simp only [okTerm, Bool.false_or] at hok
        have hne : l ≠ [] := by
          intro hl0
          subst hl0
          simp at hok
        rw [show (l ++ if (false : Bool) = true then [10] else []) ++
            flattenLines ([] : List (Bytes × Bool)) = l by simp [flattenLines]]
        exact toLines_last l hne hl

theorem terminate_map_fst : ∀ (bl : List Bytes) (t : Bool),
    (terminate bl t).map (fun p => p.1) = bl := by
  intro bl
  induction bl with
  | nil => intro t; rfl
  | cons l rest ih =>
    intro t
    cases rest with
    | nil => rfl
    | cons l2 rest2 => simp only [terminate, List.map]; rw [ih t]

theorem terminate_mem_fst : ∀ (bl : List Bytes) (t : Bool) (p : Bytes × Bool),
    p ∈ terminate bl t → p.1 ∈ bl := by
  intro bl
  induction bl with
  | nil => intro t p hp; simp [terminate] at hp
  | cons l rest ih =>
    intro t p hp
    cases rest with
    | nil =>
      simp only [terminate, List.mem_singleton] at hp
      subst hp
      simp
    | cons l2 rest2 =>
      simp only [terminate, List.mem_cons] at hp
      cases hp with
      | inl h => subst h; simp
      | inr h => simp [ih t p h]

theorem rawLen_terminate : ∀ (bl : List Bytes) (t : Bool), bl ≠ [] →
    rawLenL (terminate bl t) = (joinNL bl).length + (if t then 1 else 0) := by
  intro bl
  induction bl with
  | nil => intro t h; exact absurd rfl h
  | cons l rest ih =>
    intro t _
    cases rest with
    | nil => cases t <;> simp [terminate, rawLenL, joinNL]
    | cons l2 rest2 =>
      have hih := ih t (by simp)
      show rawLenL ((l, true) :: terminate (l2 :: rest2) t) =
        (l ++ 10 :: joinNL (l2 :: rest2)).length + (if t then 1 else 0)
      rw [show rawLenL ((l, true) :: terminate (l2 :: rest2) t) =
          l.length + 1 + rawLenL (terminate (l2 :: rest2) t) by
        simp [rawLenL]]
      rw [hih]
      simp
      omega

theorem lastTermAdj_terminate : ∀ (bl : List Bytes) (t : Bool), bl ≠ [] →
    lastTermAdj (terminate bl t) = if t then 1 else 0 := by
  intro bl
  induction bl with
  | nil => intro t h; exact absurd rfl h
  | cons l rest ih =>
    intro t _
    cases rest with
    | nil => cases t <;> rfl
    | cons l2 rest2 =>
      have hih := ih t (by simp)
      simp only [terminate, lastTermAdj, List.getLast?_cons_cons] at hih ⊢
      cases rest2 with
      | nil => exact hih
      | cons l3 rest3 => exact hih

theorem flatten_terminate : ∀ (bl : List Bytes) (t : Bool), bl ≠ [] →
    flattenLines (terminate bl t) = joinNL bl ++ (if t then [10] else []) := by
  intro bl
  induction bl with
  | nil => intro t h; exact absurd rfl h
  | cons l rest ih =>
    intro t _
    cases rest with
    | nil => cases t <;> simp [terminate, flattenLines, joinNL]
    | cons l2 rest2 =>
      have hih := ih t (by simp)
      simp only [terminate, joinNL]
      rw [flattenLines_cons, hih]
      simp

end Fasta

namespace Fasta

theorem isHeaderL_headerLine (r : FastaRecord) : isHeaderL (headerLineOf r) = true := rfl

theorem takeWhile_recordsLines_nil (rs : List FastaRecord) (t : Bool) :
    (recordsLines rs t).takeWhile (fun p => !(isHeaderL p.1)) = [] := by
  cases rs with
  | nil => rfl
  | cons r rest =>
    show ((headerLineOf r, true) :: _).takeWhile (fun p => !(isHeaderL p.1)) = []
    simp [List.takeWhile, isHeaderL_headerLine]

theorem wfRecord_parts (r : FastaRecord) (h : wfRecord r = true) :
    r.bodyLines ≠ [] ∧
    (∀ l ∈ r.bodyLines, l ≠ [] ∧ (∀ x ∈ l, (x != 10) = true) ∧ isHeaderL l = false) ∧
    (∀ x ∈ r.id, (x != 10) = true ∧ (x != 32) = true) ∧
    (∀ c, r.comment = some c → ∀ x ∈ c, (x != 10) = true) := by
  simp only [wfRecord, Bool.and_eq_true, List.all_eq_true] at h
  obtain ⟨⟨⟨hne, hbody⟩, hid⟩, hcom⟩ := h
  refine ⟨by simpa using hne, ?_, ?_, ?_⟩
  · intro l hlmem
    obtain ⟨⟨h1, h2⟩, h3⟩ := hbody l hlmem
    exact ⟨by simpa using h1, h2, by simpa using h3⟩
  · intro x hx
    exact hid x hx
  · intro c hc x hx
    rw [hc] at hcom
    rw [List.all_eq_true] at hcom
    exact hcom x hx

theorem splitHeader_header (r : FastaRecord)
    (hid : ∀ x ∈ r.id, (x != 32) = true) :
    splitHeader ((headerLineOf r).drop 1) = (r.id, r.comment) := by
  have hdrop : (headerLineOf r).drop 1 =
      r.id ++ (match r.comment with | some c => 32 :: c | none => []) := by
    rfl
  rw [splitHeader, hdrop]
  cases hc : r.comment with
  | none =>
    simp only
    rw [show (r.id ++ (match (none : Option Bytes) with
        | some c => 32 :: c | none => [])) = r.id by simp]
    rw [takeWhile_all_of 32 r.id hid, List.drop_length]
  | some c =>
    simp only
    rw [show (r.id ++ (match (some c : Option Bytes) with
        | some c => 32 :: c | none => [])) = r.id ++ 32 :: c by simp]
    rw [takeWhile_stop 32 r.id c hid, List.drop_left]

/-- The reader, run over the serialized lines of a well-formed record
list, emits exactly the expected descriptors. -/
theorem readRecs_records (ws : Bool) : ∀ (rs : List FastaRecord) (t : Bool) (fuel off : Nat),
    wfRecords rs = true → rs.length < fuel →
    readRecsF ws fuel off (recordsLines rs t) = expectedDescs ws off rs t := by
  intro rs
  induction rs with
  | nil =>
    intro t fuel off _ hf
    cases fuel with
    | zero => omega
    | succ f => rfl
  | cons r rest ih =>
    intro t fuel off hwf hf
    cases fuel with
    | zero => omega
    | succ f =>
      have hwfr : wfRecord r = true := by
        simp only [wfRecords, List.all_cons, Bool.and_eq_true] at hwf
        exact hwf.1
      have hwfrest : wfRecords rest = true := by
        simp only [wfRecords, List.all_cons, Bool.and_eq_true] at hwf
        exact hwf.2
      obtain ⟨hblne, hbody, hid, _⟩ := wfRecord_parts r hwfr
      have hlines : recordsLines (r :: rest) t = (headerLineOf r, true) ::
          (terminate r.bodyLines (if rest.isEmpty then t else true) ++ recordsLines rest t) := by
        rfl
      rw [hlines]
      have hpos : ∀ p ∈ terminate r.bodyLines (if rest.isEmpty then t else true),
          ((fun p => !(isHeaderL p.1)) p) = true := by
        intro p hp
        have hmem := terminate_mem_fst r.bodyLines _ p hp
        have := (hbody p.1 hmem).2.2
        simp [this]
      simp only [readRecsF, isHeaderL_headerLine, if_true]
      rw [List.takeWhile_append_of_pos hpos, takeWhile_recordsLines_nil, List.append_nil]
      rw [show (terminate r.bodyLines (if rest.isEmpty then t else true) ++
          recordsLines rest t).drop
            (terminate r.bodyLines (if rest.isEmpty then t else true)).length =
          recordsLines rest t from List.drop_left _ _]
      rw [rawLen_terminate r.bodyLines _ hblne, lastTermAdj_terminate r.bodyLines _ hblne]
      rw [splitHeader_header r (fun x hx => (hid x hx).2)]
      rw [terminate_map_fst]
      simp only [expectedDescs]
      have hlt : rest.length < f := by
        simp only [List.length_cons] at hf
        omega
      generalize (if (if rest.isEmpty = true then t else true) = true then 1 else 0) = k
      rw [show off + (headerLineOf r).length + 1 +
          ((joinNL r.bodyLines).length + k) - k =
          off + (headerLineOf r).length + 1 + (joinNL r.bodyLines).length by omega]
      rw [show off + (headerLineOf r).length + 1 + (joinNL r.bodyLines).length -
          (off + (headerLineOf r).length + 1) = (joinNL r.bodyLines).length by omega]
      rw [ih t f (off + (headerLineOf r).length + 1 +
        ((joinNL r.bodyLines).length + k)) hwfrest hlt]
      rw [show off + (headerLineOf r).length + 1 + ((joinNL r.bodyLines).length + k) =
          off + (headerLineOf r).length + 1 + (joinNL r.bodyLines).length + k by omega]

end Fasta

namespace Fasta

theorem okTerm_cons_true (l : Bytes) (ls : List (Bytes × Bool)) :
    okTerm ((l, true) :: ls) = okTerm ls := by
  cases ls with
  | nil => rfl
  | cons p rest => rfl

theorem okTerm_terminate_append (bl : List Bytes) :
    ∀ (b : Bool) (ys : List (Bytes × Bool)), bl ≠ [] → (∀ l ∈ bl, l ≠ []) →
    okTerm ys = true → (ys ≠ [] → b = true) →
    okTerm (terminate bl b ++ ys) = true := by
  induction bl with
  | nil => intro b ys h; exact absurd rfl h
  | cons l rest ih =>
    intro b ys _ hne hys hbs
    cases rest with
    | nil =>
      show okTerm ((l, b) :: ys) = true
      cases ys with
      | nil =>
        show (b || !l.isEmpty) = true
        have : l ≠ [] := hne l (by simp)
        cases b with
        | true => rfl
        | false => simpa using this
      | cons p ys2 =>
        rw [hbs (by simp), okTerm_cons_true]
        exact hys
    | cons l2 rest2 =>
      show okTerm ((l, true) :: (terminate (l2 :: rest2) b ++ ys)) = true
      rw [okTerm_cons_true]
      exact ih b ys (by simp) (fun x hx => hne x (by simp [hx])) hys hbs

theorem recordsLines_ne_nil (rs : List FastaRecord) (t : Bool) (h : rs ≠ []) :
    recordsLines rs t ≠ [] := by
  cases rs with
  | nil => exact absurd rfl h
  | cons r rest => simp [recordsLines, recordLinesT]

theorem okTerm_recordsLines : ∀ (rs : List FastaRecord) (t : Bool),
    wfRecords rs = true → okTerm (recordsLines rs t) = true := by
  intro rs
  induction rs with
  | nil => intro t _; rfl
  | cons r rest ih =>
    intro t hwf
    have hwfr : wfRecord r = true := by
      simp only [wfRecords, List.all_cons, Bool.and_eq_true] at hwf
      exact hwf.1
    have hwfrest : wfRecords rest = true := by
      simp only [wfRecords, List.all_cons, Bool.and_eq_true] at hwf
      exact hwf.2
    obtain ⟨hblne, hbody, _, _⟩ := wfRecord_parts r hwfr
    show okTerm ((headerLineOf r, true) ::
      (terminate r.bodyLines (if rest.isEmpty then t else true) ++ recordsLines rest t)) = true
    rw [okTerm_cons_true]
    apply okTerm_terminate_append r.bodyLines _ _ hblne
        (fun l hl => (hbody l hl).1) (ih t hwfrest)
    intro hne
    cases rest with
    | nil => exact absurd rfl hne
    | cons r2 rest2 => simp

theorem recordsLines_length (rs : List FastaRecord) (t : Bool) :
    rs.length ≤ (recordsLines rs t).length := by
  induction rs with
  | nil => simp [recordsLines]
  | cons r rest ih =>
    show (r :: rest).length ≤ ((headerLineOf r, true) ::
      (terminate r.bodyLines (if rest.isEmpty then t else true) ++ recordsLines rest t)).length
    simp only [List.length_cons, List.length_append]
    omega

theorem headerLine_all10 (r : FastaRecord) (hwfr : wfRecord r = true) :
    (headerLineOf r).all (· != 10) = true := by
  obtain ⟨_, _, hid, hcom⟩ := wfRecord_parts r hwfr
  rw [List.all_eq_true]
  intro x hx
  simp only [headerLineOf, List.mem_cons, List.mem_append] at hx
  rcases hx with h62 | hid2 | hrest
  · subst h62; rfl
  · exact (hid x hid2).1
  · cases hc : r.comment with
    | none => rw [hc] at hrest; simp at hrest
    | some c =>
      rw [hc] at hrest
      simp only [List.mem_cons] at hrest
      rcases hrest with h32 | hcm
      · subst h32; rfl
      · exact hcom c hc x hcm

theorem recordsLines_all10 : ∀ (rs : List FastaRecord) (t : Bool),
    wfRecords rs = true → ∀ p ∈ recordsLines rs t, p.1.all (· != 10) = true := by
  intro rs
  induction rs with
  | nil => intro t _ p hp; simp [recordsLines] at hp
  | cons r rest ih =>
    intro t hwf p hp
    have hwfr : wfRecord r = true := by
      simp only [wfRecords, List.all_cons, Bool.and_eq_true] at hwf
      exact hwf.1
    have hwfrest : wfRecords rest = true := by
      simp only [wfRecords, List.all_cons, Bool.and_eq_true] at hwf
      exact hwf.2
    obtain ⟨_, hbody, _, _⟩ := wfRecord_parts r hwfr
    have hp2 : p = (headerLineOf r, true) ∨
        p ∈ terminate r.bodyLines (if rest.isEmpty then t else true) ∨
        p ∈ recordsLines rest t := by
      have : p ∈ (headerLineOf r, true) ::
          (terminate r.bodyLines (if rest.isEmpty then t else true) ++
            recordsLines rest t) := hp
      simp only [List.mem_cons, List.mem_append] at this
      tauto
    rcases hp2 with hh | hb | hr
    · subst hh
      exact headerLine_all10 r hwfr
    · have hmem := terminate_mem_fst r.bodyLines _ p hb
      rw [List.all_eq_true]
      exact (hbody p.1 hmem).2.1
    · exact ih t hwfrest p hr

end Fasta

namespace Fasta

theorem flatten_recordLines (r : FastaRecord) (b : Bool) (hbl : r.bodyLines ≠ []) :
    flattenLines (recordLinesT r b) =
      (headerLineOf r ++ [10]) ++ (joinNL r.bodyLines ++ (if b then [10] else [])) := by
  show flattenLines ((headerLineOf r, true) :: terminate r.bodyLines b) = _
  rw [flattenLines_cons, flatten_terminate r.bodyLines b hbl]
  simp

theorem sliceL_of_append (pre mid post : Bytes) :
    sliceL (pre ++ (mid ++ post)) pre.length (pre.length + mid.length) = mid := by
  rw [sliceL_add, List.drop_left]
  exact List.take_left mid post

theorem expectedDescs_length (ws : Bool) : ∀ (rs : List FastaRecord) (off : Nat) (t : Bool),
    (expectedDescs ws off rs t).length = rs.length := by
  intro rs
  induction rs with
  | nil => intro off t; rfl
  | cons r rest ih =>
    intro off t
    simp only [expectedDescs, List.length_cons]
    rw [ih]

/-- Offsets and slices of the expected descriptors, relative to the
serialized bytes with an arbitrary prefix. -/
theorem expectedDescs_props (ws : Bool) :
    ∀ (rs : List FastaRecord) (t : Bool) (off : Nat) (pre : Bytes),
    wfRecords rs = true → pre.length = off →
    (expectedDescs ws off rs t).length = rs.length ∧
    (∀ k d r, (expectedDescs ws off rs t).get? k = some d → rs.get? k = some r →
      d.id = r.id ∧ d.name = r.comment ∧ d.len = d.pos.2 - d.pos.1 ∧
      d.seq = (if ws then some r.bodyLines.flatten else none) ∧
      (headerLineOf r).length + 1 ≤ d.pos.1 ∧
      sliceL (pre ++ flattenLines (recordsLines rs t)) d.pos.1 d.pos.2 =
        joinNL r.bodyLines ∧
      sliceL (pre ++ flattenLines (recordsLines rs t))
        (d.pos.1 - ((headerLineOf r).length + 1)) d.pos.1 = headerLineOf r ++ [10] ∧
      (d.pos.2 = (pre ++ flattenLines (recordsLines rs t)).length ∨
        (pre ++ flattenLines (recordsLines rs t)).get? d.pos.2 = some 10)) := by
  intro rs
  induction rs with
  | nil =>
    intro t off pre _ _
    refine ⟨rfl, ?_⟩
    intro k d r hd _
    simp [expectedDescs] at hd
  | cons r rest ih =>
    intro t off pre hwf hpre
    have hwfr : wfRecord r = true := by
      simp only [wfRecords, List.all_cons, Bool.and_eq_true] at hwf
      exact hwf.1
    have hwfrest : wfRecords rest = true := by
      simp only [wfRecords, List.all_cons, Bool.and_eq_true] at hwf
      exact hwf.2
    obtain ⟨hblne, _, _, _⟩ := wfRecord_parts r hwfr
    have hflat : flattenLines (recordsLines (r :: rest) t) =
        flattenLines (recordLinesT r (if rest.isEmpty then t else true)) ++
          flattenLines (recordsLines rest t) := by
      show flattenLines (recordLinesT r (if rest.isEmpty then t else true) ++
        recordsLines rest t) = _
      exact flattenLines_append _ _
    have hfl2 := flatten_recordLines r (if rest.isEmpty then t else true) hblne
    constructor
    · simp only [expectedDescs, List.length_cons]
      rw [expectedDescs_length]
    · intro k d r2 hd hr2
      cases k with
      | zero =>
        simp only [expectedDescs, List.get?] at hd hr2
        injection hd with hd
        injection hr2 with hr2
        subst hd
        subst hr2
        refine ⟨rfl, rfl, by dsimp only; omega, rfl, by dsimp only; omega, ?_, ?_, ?_⟩
        · -- body slice
          dsimp only
          have hassoc : pre ++ flattenLines (recordsLines (r :: rest) t) =
              (pre ++ (headerLineOf r ++ [10])) ++
                (joinNL r.bodyLines ++
                  ((if (if rest.isEmpty then t else true) then [10] else []) ++
                    flattenLines (recordsLines rest t))) := by
            rw [hflat, hfl2]
            simp [List.append_assoc]
          rw [hassoc]
          have h1 : off + (headerLineOf r).length + 1 =
              (pre ++ (headerLineOf r ++ [10])).length := by
            simp [hpre]
            omega
          rw [show off + (headerLineOf r).length + 1 + (joinNL r.bodyLines).length =
            (pre ++ (headerLineOf r ++ [10])).length + (joinNL r.bodyLines).length by
              rw [← h1]]
          rw [h1]
          exact sliceL_of_append _ _ _
        · -- header slice
          dsimp only
          have hassoc : pre ++ flattenLines (recordsLines (r :: rest) t) =
              pre ++ ((headerLineOf r ++ [10]) ++
                (joinNL r.bodyLines ++
                  ((if (if rest.isEmpty then t else true) then [10] else []) ++
                    flattenLines (recordsLines rest t)))) := by
            rw [hflat, hfl2]
            simp [List.append_assoc]
          rw [hassoc]
          have h0 : off + (headerLineOf r).length + 1 - ((headerLineOf r).length + 1) =
              pre.length := by omega
          rw [h0]
          have h1 : off + (headerLineOf r).length + 1 =
              pre.length + (headerLineOf r ++ [10]).length := by
            simp [hpre]
            omega
          rw [h1]
          exact sliceL_of_append _ _ _
        · -- boundary
          dsimp only
          cases hb : (if rest.isEmpty then t else true) with
          | true =>
            right
            have hassoc : pre ++ flattenLines (recordsLines (r :: rest) t) =
                (pre ++ ((headerLineOf r ++ [10]) ++ joinNL r.bodyLines)) ++
                  (10 :: flattenLines (recordsLines rest t)) := by
              rw [hflat, hfl2, hb]
              simp [List.append_assoc]
            rw [hassoc]
            have hlen : (pre ++ ((headerLineOf r ++ [10]) ++ joinNL r.bodyLines)).length =
                off + (headerLineOf r).length + 1 + (joinNL r.bodyLines).length := by
              simp [hpre]
              omega
            rw [List.get?_append_right (le_of_eq hlen)]
            rw [hlen]
            simp
          | false =>
            left
            have hrest : rest.isEmpty = true ∧ t = false := by
              cases hre : rest.isEmpty with
              | true =>
                rw [hre] at hb
                exact ⟨rfl, by simpa using hb⟩
              | false =>
                rw [hre] at hb
                simp at hb
            have hrnil : rest = [] := by
              cases rest with
              | nil => rfl
              | cons a b => simp at hrest
            subst hrnil
            rw [hflat, hfl2, hb]
            rw [show recordsLines ([] : List FastaRecord) t = [] from rfl]
            simp [flattenLines, hpre]
            omega
      | succ k2 =>
        simp only [expectedDescs, List.get?] at hd hr2
        have hpre2 : (pre ++ flattenLines
            (recordLinesT r (if rest.isEmpty then t else true))).length =
            off + (headerLineOf r).length + 1 + (joinNL r.bodyLines).length +
              (if (if rest.isEmpty then t else true) then 1 else 0) := by
          rw [hfl2]
          cases (if rest.isEmpty then t else true) <;> simp [hpre] <;> omega
        obtain ⟨c1, c2, c3, c4, c5, c6, c7, c8⟩ :=
          (ih t _ (pre ++ flattenLines (recordLinesT r (if rest.isEmpty then t else true)))
            hwfrest hpre2).2 k2 d r2 hd hr2
        have hre : pre ++ flattenLines (recordsLines (r :: rest) t) =
            (pre ++ flattenLines (recordLinesT r (if rest.isEmpty then t else true))) ++
              flattenLines (recordsLines rest t) := by
          rw [hflat]
          simp [List.append_assoc]
        rw [hre]
        exact ⟨c1, c2, c3, c4, c5, c6, c7, c8⟩

end Fasta

/-- C1 (spec-modelled): for every well-formed FASTA input — serialized
from records with nonempty, newline-free body lines, with or without a
trailing newline on the final line — the reader emits one descriptor
per record, in both modes `ws` (with and without raw bytes), and each
descriptor's byte range `(start, end)` satisfies the claim: the bytes
`[start - header - 1, start)` of the input are exactly the header line
with its newline (so `start` is the offset of the first sequence byte,
just after the header's newline), the bytes `[start, end)` are exactly
the body lines joined by their interior newlines (so `end` is just
past the last sequence byte, excluding the terminating newline of the
final body line), and `end` either is the end of the input or sits on
a newline byte; the recorded length is `end - start` and the optional
raw bytes are the body lines concatenated with newlines removed. -/
theorem reader_byte_ranges_spec (rs : List Fasta.FastaRecord) (t ws : Bool)
    (hwf : Fasta.wfRecords rs = true) :
    (Fasta.specFastaRead ws (Fasta.fastaBytes rs t)).length = rs.length ∧
    ∀ k d r, (Fasta.specFastaRead ws (Fasta.fastaBytes rs t)).get? k = some d →
      rs.get? k = some r →
      d.id = r.id ∧ d.name = r.comment ∧ d.len = d.pos.2 - d.pos.1 ∧
      d.seq = (if ws then some r.bodyLines.flatten else none) ∧
      (Fasta.headerLineOf r).length + 1 ≤ d.pos.1 ∧
      sliceL (Fasta.fastaBytes rs t) d.pos.1 d.pos.2 = Fasta.joinNL r.bodyLines ∧
      sliceL (Fasta.fastaBytes rs t) (d.pos.1 - ((Fasta.headerLineOf r).length + 1))
        d.pos.1 = Fasta.headerLineOf r ++ [10] ∧
      (d.pos.2 = (Fasta.fastaBytes rs t).length ∨
        (Fasta.fastaBytes rs t).get? d.pos.2 = some 10) := by
  have hlines : Fasta.toLines (Fasta.fastaBytes rs t) = Fasta.recordsLines rs t :=
    Fasta.toLines_flatten _ (Fasta.recordsLines_all10 rs t hwf)
      (Fasta.okTerm_recordsLines rs t hwf)
  have hread : Fasta.specFastaRead ws (Fasta.fastaBytes rs t) =
      Fasta.expectedDescs ws 0 rs t := by
    unfold Fasta.specFastaRead
    rw [hlines]
    exact Fasta.readRecs_records ws rs t ((Fasta.recordsLines rs t).length + 1) 0 hwf
      (by have := Fasta.recordsLines_length rs t; omega)
  have hprops := Fasta.expectedDescs_props ws rs t 0 [] hwf rfl
  rw [hread]
  refine ⟨hprops.1, ?_⟩
  intro k d r hd hr
  have h := hprops.2 k d r hd hr
  simpa [Fasta.fastaBytes] using h

/-- Two concrete records: `a` with body lines `AC`, `GT` and `b`
with comment `cc` and body line `TT`. -/
def rsW : List Fasta.FastaRecord :=
  [{ id := [97], comment := none, bodyLines := [[65, 67], [71, 84]] },
   { id := [98], comment := some [99, 99], bodyLines := [[84, 84]] }]

theorem reader_byte_ranges_spec_witness :
    Fasta.wfRecords rsW = true ∧
    (Fasta.specFastaRead true (Fasta.fastaBytes rsW true)).length = rsW.length :=
  ⟨by decide, (reader_byte_ranges_spec rsW true true (by decide)).1⟩
